import Mathlib

set_option maxRecDepth 10000

/-!
Verification of the diff-chunking / bug-report-scoring core of the
RTL-Bug-Detection-LLM-Experiments repository
(`rtl_bug_detection_llm_experiments/assess_bug_report_contents.py`).

The Python code is shallowly embedded:
* Python `str` operations (`splitlines`, `strip`, `split`, `join`) are
  modelled on `String` / `List Char`.
* `difflib.SequenceMatcher` (with `isjunk=None`) is embedded through its
  documented semantics: `find_longest_match` returns, of all maximal
  matching blocks, the one that starts earliest in `a`, and of those the
  one that starts earliest in `b`; `get_matching_blocks` recursively
  decomposes around the longest match, merges adjacent blocks and appends
  the `(len(a), len(b), 0)` sentinel; `get_opcodes` derives the
  replace/delete/insert/equal segments.  (The `autojunk` heuristic only
  activates for sequences of 200 or more elements, and is disabled
  outright in `get_str_diff_chunks`, so it plays no role here.)
-/

namespace AssessBugReport

/-- Python `str.isspace` for the characters relevant here (the ASCII
whitespace characters plus the common Unicode ones Python treats as
whitespace); used to model `str.split()` and `str.strip()`. -/
def pyIsSpace (c : Char) : Bool :=
  c == ' ' || c == '\t' || c == '\n' || c == '\r' || c == '\x0b' || c == '\x0c' ||
  c == '\x1c' || c == '\x1d' || c == '\x1e' || c == '\x1f' || c == '\x85' || c == '\xa0' ||
  c == ' ' || c == ' ' ||
  c == '\u1680' || (0x2000 ≤ c.toNat && c.toNat ≤ 0x200a) ||
  c == '\u202f' || c == '\u205f' || c == '\u3000'

/-- The line-boundary characters of Python `str.splitlines` (other than the
two-character boundary `"\r\n"`, handled separately). -/
def isLineBreak (c : Char) : Bool :=
  c == '\n' || c == '\r' || c == '\x0b' || c == '\x0c' ||
  c == '\x1c' || c == '\x1d' || c == '\x1e' || c == '\x85' ||
  c == ' ' || c == ' '

/-- Worker for `str.splitlines(keepends=False)`: `cur` holds the (reversed)
characters of the line being scanned. -/
def splitlinesAux : List Char → List Char → List (List Char)
  | [], cur => if cur = [] then [] else [cur.reverse]
  | '\r' :: '\n' :: cs, cur => cur.reverse :: splitlinesAux cs []
  | c :: cs, cur =>
    if isLineBreak c then cur.reverse :: splitlinesAux cs []
    else splitlinesAux cs (c :: cur)

/-- Python `str.splitlines()` (without keepends). -/
def pySplitlines (s : String) : List String :=
  (splitlinesAux s.data []).map String.mk

/-- Worker for `str.splitlines(keepends=True)`. -/
def splitlinesKeepAux : List Char → List Char → List (List Char)
  | [], cur => if cur = [] then [] else [cur.reverse]
  | '\r' :: '\n' :: cs, cur => (cur.reverse ++ ['\r', '\n']) :: splitlinesKeepAux cs []
  | c :: cs, cur =>
    if isLineBreak c then (cur.reverse ++ [c]) :: splitlinesKeepAux cs []
    else splitlinesKeepAux cs (c :: cur)

/-- Python `str.splitlines(keepends=True)`. -/
def pySplitlinesKeepends (s : String) : List String :=
  (splitlinesKeepAux s.data []).map String.mk

/-- Strip whitespace from both ends of a character list (Python `str.strip()`). -/
def stripChars (l : List Char) : List Char :=
  ((l.dropWhile pyIsSpace).reverse.dropWhile pyIsSpace).reverse

/-- Python `str.strip()`. -/
def pyStrip (s : String) : String :=
  String.mk (stripChars s.data)

/-- Worker for `str.split()` (split on whitespace runs, discarding empties):
`cur` holds the (reversed) characters of the word being scanned. -/
def pyWordsAux : List Char → List Char → List (List Char)
  | [], cur => if cur = [] then [] else [cur.reverse]
  | c :: cs, cur =>
    if pyIsSpace c then
      if cur = [] then pyWordsAux cs [] else cur.reverse :: pyWordsAux cs []
    else pyWordsAux cs (c :: cur)

/-- Python `str.split()` with no arguments. -/
def pyWords (s : String) : List (List Char) :=
  pyWordsAux s.data []

/-- Join character-list words with single spaces (Python `" ".join(words)`). -/
def joinWordsChars : List (List Char) → List Char
  | [] => []
  | [w] => w
  | w :: ws => w ++ ' ' :: joinWordsChars ws

/-- `_normalize_whitespace` from the source: `" ".join(text.split())`. -/
def normalize_whitespace (text : String) : String :=
  String.mk (joinWordsChars (pyWords text))

/-- `_normalize_lines` from the source:
`[" ".join(line.strip().split()) for line in text.splitlines()]`. -/
def normalize_lines (text : String) : List String :=
  (pySplitlines text).map fun line =>
    String.mk (joinWordsChars (pyWords (pyStrip line)))

/-- Join strings with newline separators (Python `"\n".join(lines)`). -/
def joinN : List String → String
  | [] => ""
  | [l] => l
  | l :: ls => l ++ "\n" ++ joinN ls

/-- Concatenate strings (Python `"".join(lines)`). -/
def joinAll : List String → String
  | [] => ""
  | l :: ls => l ++ joinAll ls

/-- `StringDiff` from the source: a simple representation of a string diff. -/
structure StringDiff where
  old_version : String
  new_version : String
deriving DecidableEq, Repr

/-! ## `difflib.SequenceMatcher` (isjunk=None)

`find_longest_match` is embedded through its documented contract:
of all maximal matching blocks of `a[alo:ahi]` and `b[blo:bhi]`, return the
one that starts earliest in `a`, and of those the one that starts earliest
in `b`; ties are impossible after that.  Equivalently: scan all start pairs
`(i, j)` in lexicographic order and keep the first pair attaining each new
strictly larger common-run length.  Windows are represented by passing the
already-sliced lists and translating indices in the caller. -/

section Matcher

variable {α : Type} [DecidableEq α]

/-- Length of the longest common prefix of two lists (the size of the
matching block starting at a given pair of positions). -/
def extLen : List α → List α → Nat
  | x :: xs, y :: ys => if x = y then extLen xs ys + 1 else 0
  | _, _ => 0

/-- A matching block `(a-start, b-start, size)`, like `difflib.Match`. -/
structure MBlock where
  ai : Nat
  bj : Nat
  size : Nat
deriving DecidableEq, Repr

/-- The size of the matching block of `a` and `b` starting at `(i, j)`. -/
def matchAt (a b : List α) (i j : Nat) : Nat :=
  extLen (a.drop i) (b.drop j)

/-- One step of the `find_longest_match` scan: replace the current best
block when the block starting at `(i, j)` is strictly larger. -/
def flmUpd (a b : List α) (i : Nat) (best : MBlock) (j : Nat) : MBlock :=
  let k := matchAt a b i j
  if best.size < k then ⟨i, j, k⟩ else best

/-- Scan one row (fixed `i`, the given `j` candidates in order). -/
def flmRowGo (a b : List α) (i : Nat) (js : List Nat) (best : MBlock) : MBlock :=
  js.foldl (flmUpd a b i) best

/-- Scan the given rows, each over all of `b`. -/
def flmGo (a b : List α) (is : List Nat) (best : MBlock) : MBlock :=
  is.foldl (fun acc i => flmRowGo a b i (List.range b.length) acc) best

/-- `SequenceMatcher.find_longest_match` on whole lists (window handling is
done by the caller of the recursive decomposition). -/
def find_longest_match (a b : List α) : MBlock :=
  flmGo a b (List.range a.length) ⟨0, 0, 0⟩

/-- The recursive decomposition of `get_matching_blocks`: find the longest
match, recurse on what precedes it and what follows it.  Emitting the left
blocks, the match, then the translated right blocks yields the blocks in
increasing order, which is what the Python version obtains by sorting.
`fuel` bounds the recursion depth; `a.length + 1` always suffices because
windows shrink strictly. -/
def matchingBlocksAux : Nat → List α → List α → List MBlock
  | 0, _, _ => []
  | fuel + 1, a, b =>
    let m := find_longest_match a b
    if m.size = 0 then []
    else
      matchingBlocksAux fuel (a.take m.ai) (b.take m.bj)
        ++ m :: (matchingBlocksAux fuel (a.drop (m.ai + m.size)) (b.drop (m.bj + m.size))).map
            (fun blk => ⟨blk.ai + (m.ai + m.size), blk.bj + (m.bj + m.size), blk.size⟩)

/-- The second phase of `get_matching_blocks`: merge adjacent blocks.
`(i1, j1, k1)` is the pending block (initially `(0, 0, 0)`). -/
def mergeBlocks : Nat → Nat → Nat → List MBlock → List MBlock
  | i1, j1, k1, [] => if k1 ≠ 0 then [⟨i1, j1, k1⟩] else []
  | i1, j1, k1, blk :: rest =>
    if i1 + k1 = blk.ai ∧ j1 + k1 = blk.bj then
      mergeBlocks i1 j1 (k1 + blk.size) rest
    else
      (if k1 ≠ 0 then [(⟨i1, j1, k1⟩ : MBlock)] else [])
        ++ mergeBlocks blk.ai blk.bj blk.size rest

/-- `SequenceMatcher.get_matching_blocks`: sorted maximal blocks, adjacent
blocks merged, with the `(len(a), len(b), 0)` sentinel appended. -/
def get_matching_blocks (a b : List α) : List MBlock :=
  mergeBlocks 0 0 0 (matchingBlocksAux (a.length + 1) a b) ++ [⟨a.length, b.length, 0⟩]

/-- The opcode tags of `SequenceMatcher.get_opcodes`. -/
inductive DiffTag where
  | replace
  | delete
  | insert
  | equal
deriving DecidableEq, Repr

/-- An opcode `(tag, i1, i2, j1, j2)`. -/
structure Opcode where
  tag : DiffTag
  i1 : Nat
  i2 : Nat
  j1 : Nat
  j2 : Nat
deriving DecidableEq, Repr

/-- The loop of `get_opcodes`: `i`, `j` are the current positions. -/
def opcodesGo : Nat → Nat → List MBlock → List Opcode
  | _, _, [] => []
  | i, j, blk :: rest =>
    (if i < blk.ai ∧ j < blk.bj then [(⟨.replace, i, blk.ai, j, blk.bj⟩ : Opcode)]
     else if i < blk.ai then [⟨.delete, i, blk.ai, j, blk.bj⟩]
     else if j < blk.bj then [⟨.insert, i, blk.ai, j, blk.bj⟩]
     else [])
      ++ (if blk.size ≠ 0 then
            [(⟨.equal, blk.ai, blk.ai + blk.size, blk.bj, blk.bj + blk.size⟩ : Opcode)]
          else [])
      ++ opcodesGo (blk.ai + blk.size) (blk.bj + blk.size) rest

/-- `SequenceMatcher.get_opcodes`. -/
def get_opcodes (a b : List α) : List Opcode :=
  opcodesGo 0 0 (get_matching_blocks a b)

end Matcher

/-! ## The two diff chunkers -/

/-- Python slice `lines[i1:i2]`. -/
def pySlice (lines : List String) (i1 i2 : Nat) : List String :=
  (lines.drop i1).take (i2 - i1)

/-- Flush the pending chunk of `get_str_diff_chunks` (v2) if non-empty:
old and new sides are joined with `"\n"` and stripped. -/
def flushChunk (curOld curNew : List String) : List StringDiff :=
  if curOld ≠ [] ∨ curNew ≠ [] then
    [⟨pyStrip (joinN curOld), pyStrip (joinN curNew)⟩]
  else []

/-- The opcode walk of `get_str_diff_chunks` (v2), including the final
flush: an `equal` segment of 3 or more lines flushes the pending chunk,
a shorter one is absorbed as context, non-`equal` segments accumulate. -/
def chunksGo (oldLines newLines : List String) :
    List Opcode → List String → List String → List StringDiff
  | [], curOld, curNew => flushChunk curOld curNew
  | op :: ops, curOld, curNew =>
    if op.tag = .equal then
      if 3 ≤ op.i2 - op.i1 then
        flushChunk curOld curNew ++ chunksGo oldLines newLines ops [] []
      else
        chunksGo oldLines newLines ops
          (curOld ++ pySlice oldLines op.i1 op.i2)
          (curNew ++ pySlice newLines op.j1 op.j2)
    else
      chunksGo oldLines newLines ops
        (curOld ++ pySlice oldLines op.i1 op.i2)
        (curNew ++ pySlice newLines op.j1 op.j2)

/-- The chunker after line normalization: shared core of
`get_str_diff_chunks`, operating on the normalized line lists. -/
def chunksOfNorm (oldLines newLines : List String) : List StringDiff :=
  (chunksGo oldLines newLines (get_opcodes oldLines newLines) [] []).filter
    (fun d => decide (d.old_version ≠ d.new_version))

/-- `get_str_diff_chunks` from the source (the refined variant):
normalize the lines, align them with `SequenceMatcher` (autojunk
disabled), walk the opcodes with the 3-line context threshold, and drop
chunks whose old and new texts coincide. -/
def get_str_diff_chunks (old_text new_text : String) : List StringDiff :=
  chunksOfNorm (normalize_lines old_text) (normalize_lines new_text)

/-- Flush of the v1 chunker: lines (with their line endings kept) are
concatenated, with no strip and no post-filter. -/
def flushChunkV1 (curOld curNew : List String) : List StringDiff :=
  if curOld ≠ [] ∨ curNew ≠ [] then [⟨joinAll curOld, joinAll curNew⟩] else []

/-- The opcode walk of `get_str_diff_chunks_v1`: `unchanged` counts the
consecutive truly-equal (whitespace-normalized) lines; reaching 3 splits. -/
def chunksGoV1 (oldLines newLines : List String) :
    List Opcode → List String → List String → Nat → List StringDiff
  | [], curOld, curNew, _ => flushChunkV1 curOld curNew
  | op :: ops, curOld, curNew, unchanged =>
    let oldChunk := pySlice oldLines op.i1 op.i2
    let newChunk := pySlice newLines op.j1 op.j2
    if op.tag = .equal then
      if (oldChunk.zip newChunk).all
          (fun p => normalize_whitespace p.1 == normalize_whitespace p.2) then
        if 3 ≤ unchanged + oldChunk.length then
          flushChunkV1 curOld curNew ++ chunksGoV1 oldLines newLines ops [] [] 0
        else
          chunksGoV1 oldLines newLines ops (curOld ++ oldChunk) (curNew ++ newChunk)
            (unchanged + oldChunk.length)
      else
        chunksGoV1 oldLines newLines ops (curOld ++ oldChunk) (curNew ++ newChunk) 0
    else
      chunksGoV1 oldLines newLines ops (curOld ++ oldChunk) (curNew ++ newChunk) 0

/-- `get_str_diff_chunks_v1` from the source: raw `splitlines(keepends=True)`
lines, `SequenceMatcher` with its defaults (`autojunk` never activates below
200 lines, so the embedding shares `find_longest_match`), whitespace-robust
equality re-check on `equal` segments, chunks joined by plain concatenation. -/
def get_str_diff_chunks_v1 (old_text new_text : String) : List StringDiff :=
  let oldLines := pySplitlinesKeepends old_text
  let newLines := pySplitlinesKeepends new_text
  chunksGoV1 oldLines newLines (get_opcodes oldLines newLines) [] [] 0

/-! ## Markdown code-block extraction -/

/-- The fence test of `extract_markdown_code_blocks`:
`line.strip().startswith("```")`. -/
def isFence (line : String) : Bool :=
  "```".data.isPrefixOf (pyStrip line).data

/-- State of the extractor loop: whether we are inside a block, the lines
of the current block, and the completed blocks so far. -/
structure EState where
  inBlock : Bool
  cur : List String
  acc : List String
deriving DecidableEq, Repr

/-- One line of the `extract_markdown_code_blocks` loop. -/
def extractStep (st : EState) (line : String) : EState :=
  if isFence line && !st.inBlock then ⟨true, [], st.acc⟩
  else if isFence line && st.inBlock then ⟨false, st.cur, st.acc ++ [joinN st.cur]⟩
  else if st.inBlock then ⟨true, st.cur ++ [line], st.acc⟩
  else st

/-- Run the extractor loop over a list of lines from the initial state. -/
def runLines (lines : List String) : EState :=
  lines.foldl extractStep ⟨false, [], []⟩

/-- `extract_markdown_code_blocks` from the source. -/
def extract_markdown_code_blocks (markdown : String) : List String :=
  (runLines (pySplitlines markdown)).acc

/-- The number of fence lines of a markdown text (lines whose stripped
content starts with three backticks). -/
def countFenceLines (markdown : String) : Nat :=
  ((pySplitlines markdown).filter isFence).length

/-- A well-formed fenced section of a markdown document, for the
round-trip statement: prose, an opening fence line, the block content,
and a closing fence line. -/
structure MdSection where
  prose : List String
  fenceOpen : String
  content : List String
  fenceClose : String

/-- The lines of one section, in document order. -/
def sectionLines (s : MdSection) : List String :=
  s.prose ++ s.fenceOpen :: (s.content ++ [s.fenceClose])

/-- The lines of a list of sections. -/
def sectionsLines (secs : List MdSection) : List String :=
  secs.foldr (fun s acc => sectionLines s ++ acc) []

/-- Well-formedness of a section: prose and content lines are not fence
lines, the two fence lines are. -/
def GoodSection (s : MdSection) : Prop :=
  (∀ l ∈ s.prose, isFence l = false) ∧ isFence s.fenceOpen = true ∧
    (∀ l ∈ s.content, isFence l = false) ∧ isFence s.fenceClose = true

instance (s : MdSection) : Decidable (GoodSection s) := by
  unfold GoodSection
  infer_instance

/-! ## The scorer

Modelled from the spec: the body of `assess_bug_report_contents_score` is
not part of the source tree (only its tests are), so the entry point is
modelled from spec §4.4: preconditions checked eagerly at the top (no
diff chunks, or no code blocks, abort with a `PreconditionError` carrying
the stated message), then the mean over ground-truth chunks of the best
per-block similarity credit. -/

/-- Modelled from the spec: `difflib`-style similarity ratio `2*M/T` on
whitespace-normalized texts (spec §4.4 step 3), as a rational. -/
def similarity_ratio (x y : String) : ℚ :=
  let a := (normalize_whitespace x).data
  let b := (normalize_whitespace y).data
  let m := ((get_matching_blocks a b).map MBlock.size).sum
  if a.length + b.length = 0 then 1 else (2 * m : ℚ) / (a.length + b.length : ℚ)

/-- Modelled from the spec: the text of a chunk used for matching — a pure
deletion (empty new side after trimming) is matched on its old side
(spec §4.4 failure/edge policy), otherwise on its new side. -/
def chunkMatchText (d : StringDiff) : String :=
  if pyStrip d.new_version = "" then d.old_version else d.new_version

/-- Modelled from the spec: the credit a single ground-truth chunk earns
from the report's code blocks (spec §4.4 steps 3-4). -/
def chunkCredit (blocks : List String) (threshold : ℚ) (d : StringDiff) : ℚ :=
  let best := (blocks.map (fun blk => similarity_ratio (chunkMatchText d) blk)).foldl max 0
  if threshold ≤ best then 1 else best

/-- Modelled from the spec: `assess_bug_report_contents_score`, the scoring
entry point absent from the source tree.  Precondition violations abort
with `Except.error` (the `PreconditionError` of spec §7) before any scoring
work; otherwise the mean per-chunk credit is returned (spec §4.4 step 5). -/
def assess_bug_report_contents_score (base_code buggy_code bug_report : String)
    (similarity_threshold : ℚ) : Except String ℚ :=
  let diffs := get_str_diff_chunks base_code buggy_code
  if diffs = [] then Except.error "No diffs found"
  else
    let blocks := extract_markdown_code_blocks bug_report
    if blocks = [] then Except.error "No code blocks found"
    else
      let credits := diffs.map (chunkCredit blocks similarity_threshold)
      Except.ok (credits.sum / (credits.length : ℚ))

/-! ## Lemmas about the longest-match scan -/

section MatcherLemmas

variable {α : Type} [DecidableEq α]

theorem extLen_nil_left (y : List α) : extLen ([] : List α) y = 0 := by
  cases y <;> rfl

theorem extLen_nil_right (x : List α) : extLen x ([] : List α) = 0 := by
  cases x <;> rfl

theorem extLen_self (l : List α) : extLen l l = l.length := by
  induction l with
  | nil => rfl
  | cons x xs ih => simp [extLen, ih]

theorem extLen_le_left (x y : List α) : extLen x y ≤ x.length := by
  induction x generalizing y with
  | nil => simp [extLen_nil_left]
  | cons a as ih =>
    cases y with
    | nil => simp [extLen_nil_right]
    | cons b bs =>
      by_cases h : a = b
      · simpa [extLen, h] using ih bs
      · simp [extLen, h]

theorem extLen_le_right (x y : List α) : extLen x y ≤ y.length := by
  induction x generalizing y with
  | nil => simp [extLen_nil_left]
  | cons a as ih =>
    cases y with
    | nil => simp [extLen_nil_right]
    | cons b bs =>
      by_cases h : a = b
      · simpa [extLen, h] using Nat.succ_le_succ (ih bs)
      · simp [extLen, h]

theorem extLen_append (u x y : List α) :
    extLen (u ++ x) (u ++ y) = u.length + extLen x y := by
  induction u with
  | nil => simp
  | cons a as ih => simp [extLen, ih]; omega

theorem extLen_pos_head (x y : List α) (h : 0 < extLen x y) :
    ∃ v xs ys, x = v :: xs ∧ y = v :: ys := by
  match x, y with
  | [], _ => simp [extLen_nil_left] at h
  | a :: as, [] => simp [extLen_nil_right] at h
  | a :: as, b :: bs =>
    by_cases hab : a = b
    · exact ⟨a, as, bs, rfl, by rw [hab]⟩
    · simp [extLen, hab] at h

theorem matchAt_le_left (a b : List α) (i j : Nat) :
    matchAt a b i j ≤ a.length - i := by
  simpa [matchAt] using extLen_le_left (a.drop i) (b.drop j)

theorem matchAt_le_right (a b : List α) (i j : Nat) :
    matchAt a b i j ≤ b.length - j := by
  simpa [matchAt] using extLen_le_right (a.drop i) (b.drop j)

theorem matchAt_pos_get (a b : List α) (i j : Nat) (h : 0 < matchAt a b i j) :
    ∃ v, a[i]? = some v ∧ b[j]? = some v := by
  obtain ⟨v, xs, ys, hx, hy⟩ := extLen_pos_head _ _ h
  refine ⟨v, ?_, ?_⟩
  · have : (a.drop i).head? = some v := by rw [hx]; rfl
    rwa [List.head?_drop] at this
  · have : (b.drop j).head? = some v := by rw [hy]; rfl
    rwa [List.head?_drop] at this

theorem matchAt_zero (a b : List α) (i j : Nat)
    (h : ∀ v, a[i]? = some v → b[j]? = some v → False) : matchAt a b i j = 0 := by
  by_contra hne
  obtain ⟨v, hv1, hv2⟩ := matchAt_pos_get a b i j (Nat.pos_of_ne_zero hne)
  exact h v hv1 hv2

theorem flmUpd_of_le (a b : List α) (i j : Nat) (best : MBlock)
    (h : matchAt a b i j ≤ best.size) : flmUpd a b i best j = best := by
  simp [flmUpd, Nat.not_lt.2 h]

theorem flmUpd_of_lt (a b : List α) (i j : Nat) (best : MBlock)
    (h : best.size < matchAt a b i j) :
    flmUpd a b i best j = ⟨i, j, matchAt a b i j⟩ := by
  simp [flmUpd, h]

theorem flmRowGo_nil (a b : List α) (i : Nat) (best : MBlock) :
    flmRowGo a b i [] best = best := rfl

theorem flmRowGo_cons (a b : List α) (i j : Nat) (js : List Nat) (best : MBlock) :
    flmRowGo a b i (j :: js) best = flmRowGo a b i js (flmUpd a b i best j) := rfl

theorem flmRowGo_append (a b : List α) (i : Nat) (js₁ js₂ : List Nat) (best : MBlock) :
    flmRowGo a b i (js₁ ++ js₂) best = flmRowGo a b i js₂ (flmRowGo a b i js₁ best) := by
  simp [flmRowGo, List.foldl_append]

theorem flmRowGo_no_improve (a b : List α) (i : Nat) (js : List Nat) (best : MBlock)
    (h : ∀ j ∈ js, matchAt a b i j ≤ best.size) : flmRowGo a b i js best = best := by
  induction js with
  | nil => rfl
  | cons j js ih =>
    rw [flmRowGo_cons, flmUpd_of_le a b i j best (h j (by simp))]
    exact ih fun j' hj' => h j' (by simp [hj'])

theorem flmRowGo_lt (a b : List α) (i : Nat) (js : List Nat) (best : MBlock) (K : Nat)
    (h : ∀ j ∈ js, matchAt a b i j < K) (hb : best.size < K) :
    (flmRowGo a b i js best).size < K := by
  induction js generalizing best with
  | nil => exact hb
  | cons j js ih =>
    rw [flmRowGo_cons]
    by_cases hc : best.size < matchAt a b i j
    · rw [flmUpd_of_lt a b i j best hc]
      exact ih _ (fun j' hj' => h j' (by simp [hj'])) (h j (by simp))
    · rw [flmUpd_of_le a b i j best (Nat.not_lt.1 hc)]
      exact ih _ (fun j' hj' => h j' (by simp [hj'])) hb

theorem flmGo_nil (a b : List α) (best : MBlock) : flmGo a b [] best = best := rfl

theorem flmGo_cons (a b : List α) (i : Nat) (is : List Nat) (best : MBlock) :
    flmGo a b (i :: is) best = flmGo a b is (flmRowGo a b i (List.range b.length) best) := rfl

theorem flmGo_append (a b : List α) (is₁ is₂ : List Nat) (best : MBlock) :
    flmGo a b (is₁ ++ is₂) best = flmGo a b is₂ (flmGo a b is₁ best) := by
  simp [flmGo, List.foldl_append]

theorem flmGo_no_improve (a b : List α) (is : List Nat) (best : MBlock)
    (h : ∀ i ∈ is, ∀ j < b.length, matchAt a b i j ≤ best.size) :
    flmGo a b is best = best := by
  induction is with
  | nil => rfl
  | cons i is ih =>
    rw [flmGo_cons, flmRowGo_no_improve a b i _ best
      (fun j hj => h i (by simp) j (List.mem_range.1 hj))]
    exact ih fun i' hi' => h i' (by simp [hi'])

theorem flmGo_lt (a b : List α) (is : List Nat) (best : MBlock) (K : Nat)
    (h : ∀ i ∈ is, ∀ j < b.length, matchAt a b i j < K) (hb : best.size < K) :
    (flmGo a b is best).size < K := by
  induction is generalizing best with
  | nil => exact hb
  | cons i is ih =>
    rw [flmGo_cons]
    exact ih _ (fun i' hi' => h i' (by simp [hi']))
      (flmRowGo_lt a b i _ best K (fun j hj => h i (by simp) j (List.mem_range.1 hj)) hb)

theorem range_split (n i : Nat) (h : i ≤ n) :
    List.range n = List.range i ++ List.range' i (n - i) := by
  rw [List.range_eq_range', List.range_eq_range']
  have happ := List.range'_append 0 i (n - i) 1
  simp only [Nat.zero_add, Nat.one_mul] at happ
  rw [happ]
  have hni : n - i + i = n := by omega
  rw [hni]

/-- The central characterization: if the block starting at `(i₀, j₀)` has
size `K > 0`, every lexicographically earlier start pair has a strictly
smaller block, and no pair at all has a larger one, then
`find_longest_match` returns exactly `(i₀, j₀, K)`. -/
theorem find_longest_match_char {α : Type} [DecidableEq α] (a b : List α) (i₀ j₀ K : Nat)
    (hi : i₀ < a.length) (hj : j₀ < b.length)
    (hK : matchAt a b i₀ j₀ = K) (hKpos : 0 < K)
    (hbef : ∀ i, i < i₀ → ∀ j, matchAt a b i j < K)
    (hrow : ∀ j, j < j₀ → matchAt a b i₀ j < K)
    (haft : ∀ i j, matchAt a b i j ≤ K) :
    find_longest_match a b = ⟨i₀, j₀, K⟩ := by
  unfold find_longest_match
  rw [range_split a.length i₀ (le_of_lt hi), flmGo_append]
  have h₁ : (flmGo a b (List.range i₀) ⟨0, 0, 0⟩).size < K :=
    flmGo_lt a b _ _ K (fun i hi' j _ => hbef i (List.mem_range.1 hi') j) hKpos
  have hlen : a.length - i₀ = (a.length - i₀ - 1) + 1 := by omega
  rw [hlen, List.range'_succ, flmGo_cons]
  rw [range_split b.length j₀ (le_of_lt hj), flmRowGo_append]
  have h₂ : (flmRowGo a b i₀ (List.range j₀) (flmGo a b (List.range i₀) ⟨0, 0, 0⟩)).size < K :=
    flmRowGo_lt a b i₀ _ _ K (fun j hj' => hrow j (List.mem_range.1 hj')) h₁
  have hlen2 : b.length - j₀ = (b.length - j₀ - 1) + 1 := by omega
  rw [hlen2, List.range'_succ, flmRowGo_cons]
  rw [flmUpd_of_lt a b i₀ j₀ _ (by rw [hK]; exact h₂)]
  rw [hK]
  rw [flmRowGo_no_improve a b i₀ _ _ (fun j _ => haft i₀ j)]
  rw [flmGo_no_improve a b _ _ (fun i _ j _ => haft i j)]

/-- If no start pair matches at all, `find_longest_match` returns the
empty block `(0, 0, 0)`. -/
theorem find_longest_match_zero {α : Type} [DecidableEq α] (a b : List α)
    (h : ∀ i j, matchAt a b i j = 0) : find_longest_match a b = ⟨0, 0, 0⟩ := by
  unfold find_longest_match
  exact flmGo_no_improve a b _ _ (fun i _ j _ => Nat.le_of_eq (h i j))

theorem find_longest_match_self {α : Type} [DecidableEq α] (L : List α) (h : L ≠ []) :
    find_longest_match L L = ⟨0, 0, L.length⟩ := by
  have hpos : 0 < L.length := List.length_pos.2 h
  refine find_longest_match_char L L 0 0 L.length hpos hpos ?_ hpos ?_ ?_ ?_
  · simp [matchAt, extLen_self]
  · intro i hi; omega
  · intro j hj; omega
  · intro i j
    calc matchAt L L i j ≤ L.length - i := matchAt_le_left L L i j
    _ ≤ L.length := Nat.sub_le _ _

theorem matchingBlocksAux_nil_left {α : Type} [DecidableEq α] (f : Nat) (b : List α) :
    matchingBlocksAux f [] b = [] := by
  cases f with
  | zero => rfl
  | succ f =>
    have : find_longest_match ([] : List α) b = ⟨0, 0, 0⟩ :=
      find_longest_match_zero _ _ (fun i j => by simp [matchAt, extLen_nil_left])
    simp [matchingBlocksAux, this]

theorem matchingBlocksAux_nil_right {α : Type} [DecidableEq α] (f : Nat) (a : List α) :
    matchingBlocksAux f a [] = [] := by
  cases f with
  | zero => rfl
  | succ f =>
    have : find_longest_match a ([] : List α) = ⟨0, 0, 0⟩ :=
      find_longest_match_zero _ _ (fun i j => by simp [matchAt, extLen_nil_right])
    simp [matchingBlocksAux, this]

theorem matchingBlocksAux_self {α : Type} [DecidableEq α] (f : Nat) (L : List α) (h : L ≠ []) :
    matchingBlocksAux (f + 1) L L = [⟨0, 0, L.length⟩] := by
  rw [matchingBlocksAux, find_longest_match_self L h]
  have hpos : L.length ≠ 0 := fun hc => h (List.length_eq_zero.1 hc)
  simp only [hpos, if_false]
  simp [matchingBlocksAux_nil_left, List.drop_length]

theorem get_matching_blocks_self {α : Type} [DecidableEq α] (L : List α) (h : L ≠ []) :
    get_matching_blocks L L = [⟨0, 0, L.length⟩, ⟨L.length, L.length, 0⟩] := by
  rw [get_matching_blocks, matchingBlocksAux_self _ L h]
  have hpos : L.length ≠ 0 := fun hc => h (List.length_eq_zero.1 hc)
  simp [mergeBlocks, hpos]

theorem get_opcodes_self {α : Type} [DecidableEq α] (L : List α) (h : L ≠ []) :
    get_opcodes L L = [⟨.equal, 0, L.length, 0, L.length⟩] := by
  have hpos : L.length ≠ 0 := fun hc => h (List.length_eq_zero.1 hc)
  rw [get_opcodes, get_matching_blocks_self L h]
  simp [opcodesGo, hpos]

end MatcherLemmas

/-! ## The chunker on identical normalized line lists -/

theorem flushChunk_nil : flushChunk [] [] = [] := by simp [flushChunk]

theorem chunksOfNorm_self (L : List String) : chunksOfNorm L L = [] := by
  by_cases hL : L = []
  · subst hL
    simp [chunksOfNorm, get_opcodes, get_matching_blocks, matchingBlocksAux,
      mergeBlocks, opcodesGo, find_longest_match, flmGo, chunksGo, flushChunk]
  · rw [chunksOfNorm, get_opcodes_self L hL]
    by_cases h3 : 3 ≤ L.length
    · simp [chunksGo, h3, flushChunk]
    · have : ¬ 3 ≤ L.length - 0 := by omega
      rw [chunksGo]
      simp only [if_pos rfl, this, if_false]
      rw [chunksGo]
      have hslice : pySlice L 0 L.length = L := by
        simp [pySlice]
      rw [hslice]
      simp [flushChunk, hL]

/-! ## Cleanliness of normalized lines

A line produced by `_normalize_lines` is fixed by `strip` and contains no
newline character; these facts let the join/strip steps of the chunker be
computed symbolically. -/

/-- A line that stripping does not change and that contains no newline. -/
def CleanLine (l : String) : Prop :=
  stripChars l.data = l.data ∧ '\n' ∉ l.data

theorem pyWordsAux_sound (l cur : List Char) (hcur : ∀ c ∈ cur, pyIsSpace c = false) :
    ∀ w ∈ pyWordsAux l cur, w ≠ [] ∧ ∀ c ∈ w, pyIsSpace c = false := by
  induction l generalizing cur with
  | nil =>
    intro w hw
    by_cases h : cur = []
    · simp [pyWordsAux, h] at hw
    · simp [pyWordsAux, h] at hw
      subst hw
      refine ⟨by simpa using h, fun c hc => hcur c (by simpa using hc)⟩
  | cons c cs ih =>
    intro w hw
    rw [pyWordsAux] at hw
    by_cases hsp : pyIsSpace c
    · rw [if_pos hsp] at hw
      by_cases h : cur = []
      · rw [if_pos h] at hw
        exact ih [] (by simp) w hw
      · rw [if_neg h] at hw
        rcases List.mem_cons.1 hw with hw | hw
        · subst hw
          refine ⟨by simpa using h, fun d hd => hcur d (by simpa using hd)⟩
        · exact ih [] (by simp) w hw
    · rw [if_neg hsp] at hw
      refine ih (c :: cur) ?_ w hw
      intro d hd
      rcases List.mem_cons.1 hd with hd | hd
      · subst hd; simpa using hsp
      · exact hcur d hd

theorem joinWordsChars_cons (w v : List Char) (vs : List (List Char)) :
    joinWordsChars (w :: v :: vs) = w ++ ' ' :: joinWordsChars (v :: vs) := rfl

theorem joinWordsChars_mem (ws : List (List Char)) :
    ∀ c ∈ joinWordsChars ws, c = ' ' ∨ ∃ w ∈ ws, c ∈ w := by
  induction ws with
  | nil => simp [joinWordsChars]
  | cons w ws ih =>
    intro c hc
    cases ws with
    | nil => exact Or.inr ⟨w, by simp, by simpa [joinWordsChars] using hc⟩
    | cons v vs =>
      rw [joinWordsChars_cons] at hc
      rcases List.mem_append.1 hc with hc | hc
      · exact Or.inr ⟨w, by simp, hc⟩
      · rcases List.mem_cons.1 hc with hc | hc
        · exact Or.inl hc
        · rcases ih c hc with h | ⟨u, hu, hcu⟩
          · exact Or.inl h
          · exact Or.inr ⟨u, by simp [hu], hcu⟩

theorem joinWordsChars_head (w : List Char) (ws : List (List Char)) (h : w ≠ []) :
    (joinWordsChars (w :: ws)).head? = w.head? := by
  cases ws with
  | nil => rfl
  | cons v vs =>
    rw [joinWordsChars_cons]
    cases w with
    | nil => exact absurd rfl h
    | cons c cs => rfl

theorem joinWordsChars_last_decomp (ws : List (List Char)) (w : List Char) :
    ∃ pre, joinWordsChars (ws ++ [w]) = pre ++ w := by
  induction ws with
  | nil => exact ⟨[], rfl⟩
  | cons u us ih =>
    obtain ⟨pre, hpre⟩ := ih
    cases hus : us ++ [w] with
    | nil => exact absurd hus (by simp)
    | cons v vs =>
      refine ⟨u ++ ' ' :: pre, ?_⟩
      have : joinWordsChars ((u :: us) ++ [w]) = u ++ ' ' :: joinWordsChars (us ++ [w]) := by
        rw [List.cons_append, hus, joinWordsChars_cons, ← hus]
      rw [this, hpre]
      simp

theorem stripChars_eq_self (l : List Char)
    (h1 : ∀ c, l.head? = some c → pyIsSpace c = false)
    (h2 : ∀ c, l.getLast? = some c → pyIsSpace c = false) :
    stripChars l = l := by
  cases l with
  | nil => rfl
  | cons c cs =>
    rw [stripChars]
    rw [List.dropWhile_cons_of_neg (by simp [h1 c rfl])]
    cases hrev : (c :: cs).reverse with
    | nil => exact absurd hrev (by simp)
    | cons d ds =>
      have hd : (c :: cs).getLast? = some d := by
        rw [← List.head?_reverse, hrev]; rfl
      rw [List.dropWhile_cons_of_neg (by simp [h2 d hd])]
      rw [← hrev, List.reverse_reverse]

theorem dropWhile_eq_self_head (p : Char → Bool) (l : List Char)
    (h : l.dropWhile p = l) : ∀ c, l.head? = some c → p c = false := by
  intro c hc
  cases l with
  | nil => simp at hc
  | cons d ds =>
    have hcd : d = c := by simpa using hc
    subst hcd
    cases hp : p d
    · rfl
    · rw [List.dropWhile_cons_of_pos hp] at h
      have : (ds.dropWhile p).length ≤ ds.length := (List.dropWhile_sublist p).length_le
      rw [h] at this
      simp at this

theorem stripChars_eq_self_parts (l : List Char) (h : stripChars l = l) :
    l.dropWhile pyIsSpace = l ∧ l.reverse.dropWhile pyIsSpace = l.reverse := by
  have hsub1 : (l.dropWhile pyIsSpace).Sublist l := List.dropWhile_sublist pyIsSpace
  have hsub2 : ((l.dropWhile pyIsSpace).reverse.dropWhile pyIsSpace).Sublist
      (l.dropWhile pyIsSpace).reverse := List.dropWhile_sublist pyIsSpace
  have hlen : ((l.dropWhile pyIsSpace).reverse.dropWhile pyIsSpace).reverse.length
      = l.length := by
    have := congrArg List.length h
    rw [stripChars] at this
    exact this
  rw [List.length_reverse] at hlen
  have hlen2 : ((l.dropWhile pyIsSpace).reverse.dropWhile pyIsSpace).length
      ≤ (l.dropWhile pyIsSpace).length := by
    calc ((l.dropWhile pyIsSpace).reverse.dropWhile pyIsSpace).length
        ≤ (l.dropWhile pyIsSpace).reverse.length := hsub2.length_le
      _ = (l.dropWhile pyIsSpace).length := List.length_reverse _
  have hlen3 : (l.dropWhile pyIsSpace).length ≤ l.length := hsub1.length_le
  have heq1 : l.dropWhile pyIsSpace = l := hsub1.eq_of_length (by omega)
  refine ⟨heq1, ?_⟩
  have heq2 : (l.dropWhile pyIsSpace).reverse.dropWhile pyIsSpace
      = (l.dropWhile pyIsSpace).reverse := hsub2.eq_of_length (by
    rw [List.length_reverse]
    omega)
  rw [heq1] at heq2
  exact heq2

theorem stripped_head_not_space (l : List Char) (h : stripChars l = l)
    (c : Char) (hc : l.head? = some c) : pyIsSpace c = false :=
  dropWhile_eq_self_head pyIsSpace l (stripChars_eq_self_parts l h).1 c hc

theorem stripped_last_not_space (l : List Char) (h : stripChars l = l)
    (c : Char) (hc : l.getLast? = some c) : pyIsSpace c = false := by
  refine dropWhile_eq_self_head pyIsSpace l.reverse (stripChars_eq_self_parts l h).2 c ?_
  rw [List.head?_reverse]
  exact hc

theorem joinWords_clean (d : List Char) :
    stripChars (joinWordsChars (pyWordsAux d [])) = joinWordsChars (pyWordsAux d []) ∧
    '\n' ∉ joinWordsChars (pyWordsAux d []) := by
  have hws := pyWordsAux_sound d [] (by simp)
  set ws := pyWordsAux d [] with hwsdef
  constructor
  · refine stripChars_eq_self _ ?_ ?_
    · intro c hc
      cases hcase : ws with
      | nil => rw [hcase] at hc; simp [joinWordsChars] at hc
      | cons w ws' =>
        rw [hcase] at hc
        have hw := hws w (by rw [hcase]; simp)
        rw [joinWordsChars_head w ws' hw.1] at hc
        exact hw.2 c (List.mem_of_mem_head? (by rw [hc]; simp))
    · intro c hc
      rcases List.eq_nil_or_concat ws with hcase | ⟨ws', w, hcase⟩
      · rw [hcase] at hc; simp [joinWordsChars] at hc
      · rw [List.concat_eq_append] at hcase
        rw [hcase] at hc
        have hw := hws w (by rw [hcase]; simp)
        obtain ⟨pre, hpre⟩ := joinWordsChars_last_decomp ws' w
        rw [hpre, List.getLast?_append_of_ne_nil pre hw.1] at hc
        have hcw : c ∈ w := by
          obtain ⟨hne, heq⟩ := List.mem_getLast?_eq_getLast (by rw [hc]; rfl)
          rw [heq]
          exact List.getLast_mem hne
        exact hw.2 c hcw
  · intro hmem
    rcases joinWordsChars_mem ws '\n' hmem with h | ⟨w, hw, hcw⟩
    · exact absurd h (by decide)
    · have := (hws w hw).2 '\n' hcw
      exact absurd this (by decide)

/-- Every line produced by `_normalize_lines` is strip-fixed and
newline-free. -/
theorem normalize_lines_clean (t : String) :
    ∀ l ∈ normalize_lines t, CleanLine l := by
  intro l hl
  rw [normalize_lines] at hl
  rcases List.mem_map.1 hl with ⟨line, _, hline⟩
  rw [← hline]
  exact joinWords_clean (pyStrip line).data

/-! ## Joining and stripping chunk lines -/

theorem string_data_ne (x : String) (h : x ≠ "") : x.data ≠ [] := by
  intro hd
  apply h
  cases x with
  | mk d => cases hd; rfl

theorem joinN_cons (l v : String) (vs : List String) :
    joinN (l :: v :: vs) = l ++ "\n" ++ joinN (v :: vs) := rfl

theorem joinN_one (l : String) : joinN [l] = l := rfl

theorem joinN_data_cons (l v : String) (vs : List String) :
    (joinN (l :: v :: vs)).data = l.data ++ '\n' :: (joinN (v :: vs)).data := by
  rw [joinN_cons, String.data_append, String.data_append]
  have hnl : "\n".data = ['\n'] := rfl
  rw [hnl]
  simp

theorem joinN_head (x : String) (ls : List String) (h : x.data ≠ []) :
    (joinN (x :: ls)).data.head? = x.data.head? := by
  cases ls with
  | nil => rfl
  | cons v vs =>
    rw [joinN_data_cons]
    cases hx : x.data with
    | nil => exact absurd hx h
    | cons c cs => rfl

theorem joinN_last_decomp (ls : List String) (y : String) :
    ∃ pre, (joinN (ls ++ [y])).data = pre ++ y.data := by
  induction ls with
  | nil => exact ⟨[], rfl⟩
  | cons u us ih =>
    obtain ⟨pre, hpre⟩ := ih
    cases hus : us ++ [y] with
    | nil => exact absurd hus (by simp)
    | cons v vs =>
      refine ⟨u.data ++ '\n' :: pre, ?_⟩
      have hd : (joinN ((u :: us) ++ [y])).data
          = u.data ++ '\n' :: (joinN (us ++ [y])).data := by
        rw [List.cons_append, hus, joinN_data_cons, ← hus]
      rw [hd, hpre]
      simp

theorem joinN_getLast (ls : List String) (y : String) (h : y.data ≠ []) :
    (joinN (ls ++ [y])).data.getLast? = y.data.getLast? := by
  obtain ⟨pre, hpre⟩ := joinN_last_decomp ls y
  rw [hpre, List.getLast?_append_of_ne_nil pre h]

/-- Stripping a newline-join of clean lines whose first and last lines are
nonempty changes nothing. -/
theorem pyStrip_joinN (x y : String) (mid : List String)
    (hx : CleanLine x) (hy : CleanLine y) (hx0 : x ≠ "") (hy0 : y ≠ "") :
    pyStrip (joinN (x :: (mid ++ [y]))) = joinN (x :: (mid ++ [y])) := by
  have hxd := string_data_ne x hx0
  have hyd := string_data_ne y hy0
  apply String.ext
  show stripChars (joinN (x :: (mid ++ [y]))).data = (joinN (x :: (mid ++ [y]))).data
  refine stripChars_eq_self _ ?_ ?_
  · intro c hc
    rw [joinN_head x (mid ++ [y]) hxd] at hc
    exact stripped_head_not_space x.data hx.1 c hc
  · intro c hc
    rw [show x :: (mid ++ [y]) = (x :: mid) ++ [y] from (List.cons_append x mid [y]).symm] at hc
    rw [joinN_getLast (x :: mid) y hyd] at hc
    exact stripped_last_not_space y.data hy.1 c hc

theorem append_newline_inj (u u' v v' : List Char)
    (hu : '\n' ∉ u) (hu' : '\n' ∉ u')
    (h : u ++ '\n' :: v = u' ++ '\n' :: v') : u = u' := by
  induction u generalizing u' with
  | nil =>
    cases u' with
    | nil => rfl
    | cons c cs =>
      have : '\n' = c := by simpa using congrArg List.head? h
      exact absurd (by rw [this]; simp : '\n' ∈ c :: cs) hu'
  | cons c cs ih =>
    cases u' with
    | nil =>
      have : c = '\n' := by simpa using congrArg List.head? h
      exact absurd (by rw [← this]; simp : '\n' ∈ c :: cs) hu
    | cons d ds =>
      have hcd : c = d := by simpa using congrArg List.head? h
      subst hcd
      have htl : cs ++ '\n' :: v = ds ++ '\n' :: v' := by simpa using congrArg List.tail h
      rw [ih ds (fun hm => hu (by simp [hm])) (fun hm => hu' (by simp [hm])) htl]

/-- Joins of clean line lists with distinct nonempty-joined first lines
differ. -/
theorem joinN_ne_of_head_ne (x x' v v' : String) (vs vs' : List String)
    (hx : '\n' ∉ x.data) (hx' : '\n' ∉ x'.data) (hne : x ≠ x') :
    joinN (x :: v :: vs) ≠ joinN (x' :: v' :: vs') := by
  intro h
  apply hne
  apply String.ext
  have hd := congrArg String.data h
  rw [joinN_data_cons, joinN_data_cons] at hd
  exact append_newline_inj _ _ _ _ hx hx' hd

/-! ## The matcher on the two-edit family

`old = x :: (c ++ [y])`, `new = x' :: (c ++ [y'])`: single-line edits at
both ends around a shared, otherwise-unrepeated context `c`. -/

section FamilyLemmas

variable {α : Type} [DecidableEq α]

theorem extLen_head_ne (u v : α) (us vs : List α) (h : u ≠ v) :
    extLen (u :: us) (v :: vs) = 0 := by
  simp [extLen, h]

theorem matchAt_single_ne (u v : α) (h : u ≠ v) (i j : Nat) :
    matchAt [u] [v] i j = 0 := by
  match i, j with
  | 0, 0 => simp [matchAt, extLen, h]
  | 0, j + 1 => simp [matchAt, extLen_nil_right]
  | i + 1, j => simp [matchAt, extLen_nil_left]

theorem flm_single_ne (u v : α) (h : u ≠ v) :
    find_longest_match [u] [v] = ⟨0, 0, 0⟩ :=
  find_longest_match_zero _ _ (matchAt_single_ne u v h)

theorem matchingBlocksAux_of_size_zero (f : Nat) (a b : List α)
    (h : (find_longest_match a b).size = 0) : matchingBlocksAux f a b = [] := by
  cases f with
  | zero => rfl
  | succ f => rw [matchingBlocksAux, if_pos h]

theorem getElem?_inj_of_nodup (l : List α) (h : l.Nodup) (i j : Nat) (v : α)
    (hi : l[i]? = some v) (hj : l[j]? = some v) : i = j := by
  rw [List.getElem?_eq_some] at hi hj
  obtain ⟨hi1, hi2⟩ := hi
  obtain ⟨hj1, hj2⟩ := hj
  exact (List.Nodup.getElem_inj_iff h).1 (by rw [hi2, hj2])

theorem mergeBlocks_nil (i j k : Nat) :
    mergeBlocks i j k [] = if k ≠ 0 then [(⟨i, j, k⟩ : MBlock)] else [] := rfl

theorem mergeBlocks_cons (i j k : Nat) (blk : MBlock) (rest : List MBlock) :
    mergeBlocks i j k (blk :: rest) =
      if i + k = blk.ai ∧ j + k = blk.bj then mergeBlocks i j (k + blk.size) rest
      else (if k ≠ 0 then [(⟨i, j, k⟩ : MBlock)] else [])
        ++ mergeBlocks blk.ai blk.bj blk.size rest := rfl

theorem opcodesGo_nil (i j : Nat) : opcodesGo i j [] = [] := rfl

theorem opcodesGo_cons (i j : Nat) (blk : MBlock) (rest : List MBlock) :
    opcodesGo i j (blk :: rest) =
      (if i < blk.ai ∧ j < blk.bj then [(⟨.replace, i, blk.ai, j, blk.bj⟩ : Opcode)]
       else if i < blk.ai then [⟨.delete, i, blk.ai, j, blk.bj⟩]
       else if j < blk.bj then [⟨.insert, i, blk.ai, j, blk.bj⟩]
       else [])
      ++ (if blk.size ≠ 0 then
            [(⟨.equal, blk.ai, blk.ai + blk.size, blk.bj, blk.bj + blk.size⟩ : Opcode)]
          else [])
      ++ opcodesGo (blk.ai + blk.size) (blk.bj + blk.size) rest := rfl

theorem c2_row0 (x y x' y' : α) (c : List α)
    (hxmem : x ∉ x' :: (c ++ [y'])) (j : Nat) :
    matchAt (x :: (c ++ [y])) (x' :: (c ++ [y'])) 0 j = 0 := by
  apply matchAt_zero
  intro v hv1 hv2
  have hx : x = v := by simpa using hv1
  subst hx
  exact hxmem (List.getElem?_mem hv2)

theorem c2_flm (x y x' y' : α) (c : List α) (hk : 0 < c.length)
    (hxmem : x ∉ x' :: (c ++ [y'])) (hx'c : x' ∉ c) (hyy' : y ≠ y') :
    find_longest_match (x :: (c ++ [y])) (x' :: (c ++ [y'])) = ⟨1, 1, c.length⟩ := by
  have hlenO : (x :: (c ++ [y])).length = c.length + 2 := by simp
  have hlenN : (x' :: (c ++ [y'])).length = c.length + 2 := by simp
  have hdiag : matchAt (x :: (c ++ [y])) (x' :: (c ++ [y'])) 1 1 = c.length := by
    show extLen ((x :: (c ++ [y])).drop 1) ((x' :: (c ++ [y'])).drop 1) = c.length
    simp only [List.drop_one, List.tail_cons]
    rw [extLen_append c [y] [y'], extLen_head_ne y y' [] [] hyy']
    omega
  have hoff : matchAt (x :: (c ++ [y])) (x' :: (c ++ [y'])) 1 0 = 0 := by
    show extLen ((x :: (c ++ [y])).drop 1) ((x' :: (c ++ [y'])).drop 0) = 0
    simp only [List.drop_one, List.tail_cons, List.drop_zero]
    cases c with
    | nil => exact absurd hk (by simp)
    | cons c0 c' =>
      exact extLen_head_ne c0 x' _ _ (fun h => hx'c (by rw [← h]; simp))
  refine find_longest_match_char _ _ 1 1 c.length (by omega) (by omega) hdiag hk ?_ ?_ ?_
  · intro i hi j
    have hi0 : i = 0 := by omega
    subst hi0
    rw [c2_row0 x y x' y' c hxmem j]
    exact hk
  · intro j hj
    have hj0 : j = 0 := by omega
    subst hj0
    rw [hoff]
    exact hk
  · intro i j
    match i, j with
    | 0, j => rw [c2_row0 x y x' y' c hxmem j]; omega
    | 1, 0 => rw [hoff]; omega
    | 1, 1 => rw [hdiag]
    | 1, j + 2 =>
      have := matchAt_le_right (x :: (c ++ [y])) (x' :: (c ++ [y'])) 1 (j + 2)
      rw [hlenN] at this
      omega
    | i + 2, j =>
      have := matchAt_le_left (x :: (c ++ [y])) (x' :: (c ++ [y'])) (i + 2) j
      rw [hlenO] at this
      omega

theorem c2_opcodes_pos (x y x' y' : α) (c : List α) (hk : 0 < c.length)
    (hxmem : x ∉ x' :: (c ++ [y'])) (hx'c : x' ∉ c) (hxx' : x ≠ x') (hyy' : y ≠ y') :
    get_opcodes (x :: (c ++ [y])) (x' :: (c ++ [y'])) =
      [⟨.replace, 0, 1, 0, 1⟩,
       ⟨.equal, 1, 1 + c.length, 1, 1 + c.length⟩,
       ⟨.replace, 1 + c.length, c.length + 2, 1 + c.length, c.length + 2⟩] := by
  have hflm := c2_flm x y x' y' c hk hxmem hx'c hyy'
  have hblocks : matchingBlocksAux ((x :: (c ++ [y])).length + 1)
      (x :: (c ++ [y])) (x' :: (c ++ [y'])) = [⟨1, 1, c.length⟩] := by
    have hlen : (x :: (c ++ [y])).length + 1 = (c.length + 2) + 1 := by simp
    rw [hlen, matchingBlocksAux, hflm]
    have hk0 : c.length ≠ 0 := by omega
    simp only [hk0, if_false]
    have htake : (x :: (c ++ [y])).take 1 = [x] := by simp
    have htakeN : (x' :: (c ++ [y'])).take 1 = [x'] := by simp
    have hdrop : (x :: (c ++ [y])).drop (1 + c.length) = [y] := by
      have : (x :: (c ++ [y])).drop (1 + c.length) = (c ++ [y]).drop c.length := by
        rw [Nat.add_comm 1 c.length]
        rfl
      rw [this, List.drop_left c [y]]
    have hdropN : (x' :: (c ++ [y'])).drop (1 + c.length) = [y'] := by
      have : (x' :: (c ++ [y'])).drop (1 + c.length) = (c ++ [y']).drop c.length := by
        rw [Nat.add_comm 1 c.length]
        rfl
      rw [this, List.drop_left c [y']]
    rw [htake, htakeN, hdrop, hdropN]
    rw [matchingBlocksAux_of_size_zero _ [x] [x'] (by rw [flm_single_ne x x' hxx'])]
    rw [matchingBlocksAux_of_size_zero _ [y] [y'] (by rw [flm_single_ne y y' hyy'])]
    simp
  rw [get_opcodes, get_matching_blocks, hblocks]
  have hlenO : (x :: (c ++ [y])).length = c.length + 2 := by simp
  have hlenN : (x' :: (c ++ [y'])).length = c.length + 2 := by simp
  rw [hlenO, hlenN]
  have hk0 : c.length ≠ 0 := by omega
  rw [mergeBlocks_cons]
  rw [if_neg (by simp : ¬((0 : Nat) + 0 = 1 ∧ (0 : Nat) + 0 = 1))]
  rw [if_neg (by simp : ¬(0 : Nat) ≠ 0)]
  rw [mergeBlocks_nil, if_pos hk0]
  simp only [List.nil_append, List.singleton_append, List.cons_append, List.nil_append]
  rw [opcodesGo_cons]
  rw [if_pos (⟨by omega, by omega⟩ : (0 : Nat) < 1 ∧ (0 : Nat) < 1), if_pos hk0]
  rw [opcodesGo_cons]
  rw [if_pos (⟨by omega, by omega⟩ : 1 + c.length < c.length + 2 ∧ 1 + c.length < c.length + 2)]
  rw [if_neg (by simp : ¬(0 : Nat) ≠ 0)]
  rw [opcodesGo_nil]
  simp

theorem c2_opcodes_zero (x y x' y' : α)
    (hxx' : x ≠ x') (hxy' : x ≠ y') (hyx' : y ≠ x') (hyy' : y ≠ y') :
    get_opcodes [x, y] [x', y'] = [⟨.replace, 0, 2, 0, 2⟩] := by
  have hzero : ∀ i j, matchAt [x, y] [x', y'] i j = 0 := by
    intro i j
    match i, j with
    | 0, 0 => simpa [matchAt] using extLen_head_ne x x' [y] [y'] hxx'
    | 0, 1 => simpa [matchAt] using extLen_head_ne x y' [y] [] hxy'
    | 0, j + 2 => simp [matchAt, extLen_nil_right]
    | 1, 0 => simpa [matchAt] using extLen_head_ne y x' [] [y'] hyx'
    | 1, 1 => simpa [matchAt] using extLen_head_ne y y' [] [] hyy'
    | 1, j + 2 => simp [matchAt, extLen_nil_right]
    | i + 2, j => simp [matchAt, extLen_nil_left]
  have hflm := find_longest_match_zero _ _ hzero
  rw [get_opcodes, get_matching_blocks]
  rw [matchingBlocksAux_of_size_zero _ _ _ (by rw [hflm])]
  rw [mergeBlocks_nil, if_neg (by simp : ¬(0 : Nat) ≠ 0)]
  simp only [List.length_cons, List.length_nil, List.nil_append]
  rw [opcodesGo_cons]
  rw [if_pos (⟨by omega, by omega⟩ : (0 : Nat) < 0 + 1 + 1 ∧ (0 : Nat) < 0 + 1 + 1)]
  rw [if_neg (by simp : ¬(0 : Nat) ≠ 0)]
  rw [opcodesGo_nil]
  simp

end FamilyLemmas

/-! ## The chunker on the two-edit family -/

theorem pyStrip_clean (l : String) (h : CleanLine l) : pyStrip l = l := by
  apply String.ext
  exact h.1

theorem chunksGo_nil (o n : List String) (co cn : List String) :
    chunksGo o n [] co cn = flushChunk co cn := rfl

theorem chunksGo_cons (o n : List String) (op : Opcode) (ops : List Opcode)
    (co cn : List String) :
    chunksGo o n (op :: ops) co cn =
      if op.tag = .equal then
        if 3 ≤ op.i2 - op.i1 then
          flushChunk co cn ++ chunksGo o n ops [] []
        else
          chunksGo o n ops (co ++ pySlice o op.i1 op.i2) (cn ++ pySlice n op.j1 op.j2)
      else
        chunksGo o n ops (co ++ pySlice o op.i1 op.i2) (cn ++ pySlice n op.j1 op.j2) := rfl

theorem flushChunk_pair (co cn : List String) (h : co ≠ []) :
    flushChunk co cn = [⟨pyStrip (joinN co), pyStrip (joinN cn)⟩] := by
  rw [flushChunk, if_pos (Or.inl h)]

theorem cons_append_drop {α : Type} (x y : α) (c : List α) :
    (x :: (c ++ [y])).drop (1 + c.length) = [y] := by
  have h1 : (x :: (c ++ [y])).drop (1 + c.length) = (c ++ [y]).drop c.length := by
    rw [Nat.add_comm 1 c.length]
    rfl
  rw [h1, List.drop_left c [y]]

/-- Two single-line edits with 3 or more unchanged context lines between
them: two chunks, one per edit. -/
theorem c2_chunks_split (x y x' y' : String) (c : List String) (hk : 3 ≤ c.length)
    (hxmem : x ∉ x' :: (c ++ [y'])) (hx'c : x' ∉ c) (hxx' : x ≠ x') (hyy' : y ≠ y')
    (hcx : CleanLine x) (hcx' : CleanLine x') (hcy : CleanLine y) (hcy' : CleanLine y') :
    chunksOfNorm (x :: (c ++ [y])) (x' :: (c ++ [y'])) = [⟨x, x'⟩, ⟨y, y'⟩] := by
  rw [chunksOfNorm, c2_opcodes_pos x y x' y' c (by omega) hxmem hx'c hxx' hyy']
  have hsO1 : pySlice (x :: (c ++ [y])) 0 1 = [x] := by simp [pySlice]
  have hsN1 : pySlice (x' :: (c ++ [y'])) 0 1 = [x'] := by simp [pySlice]
  have hsO3 : pySlice (x :: (c ++ [y])) (1 + c.length) (c.length + 2) = [y] := by
    rw [pySlice, cons_append_drop]
    have h1 : c.length + 2 - (1 + c.length) = 1 := by omega
    rw [h1]
    simp
  have hsN3 : pySlice (x' :: (c ++ [y'])) (1 + c.length) (c.length + 2) = [y'] := by
    rw [pySlice, cons_append_drop]
    have h1 : c.length + 2 - (1 + c.length) = 1 := by omega
    rw [h1]
    simp
  have hcond : 3 ≤ 1 + c.length - 1 := by omega
  simp only [chunksGo_cons, chunksGo_nil, hsO1, hsN1, hsO3, hsN3]
  simp only [show ((⟨.replace, 0, 1, 0, 1⟩ : Opcode).tag = DiffTag.equal) = False by simp,
    show ((⟨.equal, 1, 1 + c.length, 1, 1 + c.length⟩ : Opcode).tag = DiffTag.equal) = True by simp,
    show ((⟨.replace, 1 + c.length, c.length + 2, 1 + c.length, c.length + 2⟩ : Opcode).tag
      = DiffTag.equal) = False by simp,
    if_true, if_false]
  rw [if_pos hcond]
  rw [List.nil_append, List.nil_append, List.nil_append, List.nil_append]
  rw [flushChunk_pair [x] [x'] (by simp), flushChunk_pair [y] [y'] (by simp)]
  rw [joinN_one, joinN_one, joinN_one, joinN_one]
  rw [pyStrip_clean x hcx, pyStrip_clean x' hcx', pyStrip_clean y hcy, pyStrip_clean y' hcy']
  simp [List.filter, hxx', hyy']

/-- Two single-line edits with 2 or fewer unchanged context lines between
them: a single merged chunk holding both edits and the context. -/
theorem c2_chunks_merged (x y x' y' : String) (c : List String) (hk : c.length ≤ 2)
    (hxmem : x ∉ x' :: (c ++ [y'])) (hx'c : x' ∉ c)
    (hxx' : x ≠ x') (hxy' : x ≠ y') (hyx' : y ≠ x') (hyy' : y ≠ y')
    (hcx : CleanLine x) (hcx' : CleanLine x') (hcy : CleanLine y) (hcy' : CleanLine y')
    (hx0 : x ≠ "") (hx0' : x' ≠ "") (hy0 : y ≠ "") (hy0' : y' ≠ "") :
    chunksOfNorm (x :: (c ++ [y])) (x' :: (c ++ [y'])) =
      [⟨joinN (x :: (c ++ [y])), joinN (x' :: (c ++ [y']))⟩] := by
  have hne : joinN (x :: (c ++ [y])) ≠ joinN (x' :: (c ++ [y'])) := by
    cases c with
    | nil => exact joinN_ne_of_head_ne x x' y y' [] [] hcx.2 hcx'.2 hxx'
    | cons c0 c' => exact joinN_ne_of_head_ne x x' c0 c0 (c' ++ [y]) (c' ++ [y']) hcx.2 hcx'.2 hxx'
  have hstripO := pyStrip_joinN x y c hcx hcy hx0 hy0
  have hstripN := pyStrip_joinN x' y' c hcx' hcy' hx0' hy0'
  by_cases hk0 : c.length = 0
  · have hc : c = [] := List.length_eq_zero.1 hk0
    subst hc
    simp only [List.nil_append] at hstripO hstripN hne ⊢
    rw [chunksOfNorm, c2_opcodes_zero x y x' y' hxx' hxy' hyx' hyy']
    have hsO : pySlice [x, y] 0 2 = [x, y] := by simp [pySlice]
    have hsN : pySlice [x', y'] 0 2 = [x', y'] := by simp [pySlice]
    simp only [chunksGo_cons, chunksGo_nil, hsO, hsN]
    simp only [show ((⟨.replace, 0, 2, 0, 2⟩ : Opcode).tag = DiffTag.equal) = False by simp,
      if_false]
    rw [List.nil_append, List.nil_append]
    rw [flushChunk_pair [x, y] [x', y'] (by simp)]
    rw [show joinN [x, y] = joinN (x :: [y]) from rfl,
      show joinN [x', y'] = joinN (x' :: [y']) from rfl]
    rw [hstripO, hstripN]
    simp [List.filter, hne]
  · rw [chunksOfNorm, c2_opcodes_pos x y x' y' c (by omega) hxmem hx'c hxx' hyy']
    have hsO1 : pySlice (x :: (c ++ [y])) 0 1 = [x] := by simp [pySlice]
    have hsN1 : pySlice (x' :: (c ++ [y'])) 0 1 = [x'] := by simp [pySlice]
    have hsO2 : pySlice (x :: (c ++ [y])) 1 (1 + c.length) = c := by
      rw [pySlice]
      have h1 : 1 + c.length - 1 = c.length := by omega
      rw [h1]
      show (c ++ [y]).take c.length = c
      exact List.take_left c [y]
    have hsN2 : pySlice (x' :: (c ++ [y'])) 1 (1 + c.length) = c := by
      rw [pySlice]
      have h1 : 1 + c.length - 1 = c.length := by omega
      rw [h1]
      show (c ++ [y']).take c.length = c
      exact List.take_left c [y']
    have hsO3 : pySlice (x :: (c ++ [y])) (1 + c.length) (c.length + 2) = [y] := by
      rw [pySlice, cons_append_drop]
      have h1 : c.length + 2 - (1 + c.length) = 1 := by omega
      rw [h1]
      simp
    have hsN3 : pySlice (x' :: (c ++ [y'])) (1 + c.length) (c.length + 2) = [y'] := by
      rw [pySlice, cons_append_drop]
      have h1 : c.length + 2 - (1 + c.length) = 1 := by omega
      rw [h1]
      simp
    have hcond : ¬ 3 ≤ 1 + c.length - 1 := by omega
    simp only [chunksGo_cons, chunksGo_nil, hsO1, hsN1, hsO2, hsN2, hsO3, hsN3]
    simp only [show ((⟨.replace, 0, 1, 0, 1⟩ : Opcode).tag = DiffTag.equal) = False by simp,
      show ((⟨.equal, 1, 1 + c.length, 1, 1 + c.length⟩ : Opcode).tag = DiffTag.equal) = True by simp,
      show ((⟨.replace, 1 + c.length, c.length + 2, 1 + c.length, c.length + 2⟩ : Opcode).tag
        = DiffTag.equal) = False by simp,
      if_true, if_false]
    rw [if_neg hcond]
    rw [List.nil_append, List.nil_append]
    rw [flushChunk_pair ([x] ++ c ++ [y]) ([x'] ++ c ++ [y']) (by simp)]
    rw [show ([x] ++ c ++ [y] : List String) = x :: (c ++ [y]) by simp,
      show ([x'] ++ c ++ [y'] : List String) = x' :: (c ++ [y']) by simp]
    rw [hstripO, hstripN]
    simp [List.filter, hne]

/-! ## The matcher on the single-line-deletion family

`old = pre ++ (w :: post)`, `new = pre ++ post`: one line removed, all
lines pairwise distinct. -/

section FamilyC5

variable {α : Type} [DecidableEq α]

theorem c5_old_get (w : α) (pre post : List α) (i : Nat) :
    (pre ++ (w :: post))[i]? =
      if i < pre.length then pre[i]?
      else if i = pre.length then some w
      else post[i - pre.length - 1]? := by
  rw [List.getElem?_append]
  by_cases h : i < pre.length
  · rw [if_pos h, if_pos h]
  · rw [if_neg h, if_neg h]
    by_cases h2 : i = pre.length
    · rw [if_pos h2, h2]
      simp
    · rw [if_neg h2]
      have h3 : i - pre.length = (i - pre.length - 1) + 1 := by omega
      rw [h3]
      simp

theorem c5_new_get (pre post : List α) (j : Nat) :
    (pre ++ post)[j]? = if j < pre.length then pre[j]? else post[j - pre.length]? := by
  rw [List.getElem?_append]

theorem c5_match_pos (w : α) (pre post : List α)
    (hpre : pre.Nodup) (hpost : post.Nodup) (hwpre : w ∉ pre) (hwpost : w ∉ post)
    (hdisj : ∀ v ∈ pre, v ∉ post) (i j : Nat)
    (h : 0 < matchAt (pre ++ (w :: post)) (pre ++ post) i j) :
    (i = j ∧ i < pre.length) ∨
      (i = j + 1 ∧ pre.length ≤ j ∧ j < pre.length + post.length) := by
  obtain ⟨v, hvi, hvj⟩ := matchAt_pos_get _ _ i j h
  rw [c5_old_get] at hvi
  rw [c5_new_get] at hvj
  by_cases hip : i < pre.length
  · rw [if_pos hip] at hvi
    by_cases hjp : j < pre.length
    · rw [if_pos hjp] at hvj
      exact Or.inl ⟨getElem?_inj_of_nodup pre hpre i j v hvi hvj, hip⟩
    · rw [if_neg hjp] at hvj
      exact absurd (List.getElem?_mem hvj) (hdisj v (List.getElem?_mem hvi))
  · rw [if_neg hip] at hvi
    by_cases hie : i = pre.length
    · rw [if_pos hie] at hvi
      have hv : v = w := (Option.some.inj hvi).symm
      subst hv
      by_cases hjp : j < pre.length
      · rw [if_pos hjp] at hvj
        exact absurd (List.getElem?_mem hvj) hwpre
      · rw [if_neg hjp] at hvj
        exact absurd (List.getElem?_mem hvj) hwpost
    · rw [if_neg hie] at hvi
      by_cases hjp : j < pre.length
      · rw [if_pos hjp] at hvj
        exact absurd (List.getElem?_mem hvi) (hdisj v (List.getElem?_mem hvj))
      · rw [if_neg hjp] at hvj
        have hinj := getElem?_inj_of_nodup post hpost _ _ v hvi hvj
        have hjlt : j - pre.length < post.length := by
          rw [List.getElem?_eq_some] at hvj
          exact hvj.1
        exact Or.inr ⟨by omega, by omega, by omega⟩

theorem c5_diag (w : α) (pre post : List α) (hwpost : w ∉ post)
    (i : Nat) (hip : i ≤ pre.length) :
    matchAt (pre ++ (w :: post)) (pre ++ post) i i = pre.length - i := by
  have hO : (pre ++ (w :: post)).drop i = pre.drop i ++ (w :: post) := by
    rw [List.drop_append_eq_append_drop]
    have h0 : i - pre.length = 0 := by omega
    rw [h0]
    rfl
  have hN : (pre ++ post).drop i = pre.drop i ++ post := by
    rw [List.drop_append_eq_append_drop]
    have h0 : i - pre.length = 0 := by omega
    rw [h0]
    rfl
  rw [matchAt, hO, hN, extLen_append]
  have hz : extLen (w :: post) post = 0 := by
    cases post with
    | nil => exact extLen_nil_right _
    | cons p0 ps =>
      exact extLen_head_ne w p0 _ _ (fun he => hwpost (by rw [he]; simp))
  rw [hz, List.length_drop]
  omega

theorem c5_shift (w : α) (pre post : List α) (t : Nat) :
    matchAt (pre ++ (w :: post)) (pre ++ post) (pre.length + 1 + t) (pre.length + t)
      = post.length - t := by
  have hO : (pre ++ (w :: post)).drop (pre.length + 1 + t) = post.drop t := by
    rw [List.drop_append_eq_append_drop]
    rw [List.drop_eq_nil_of_le (by omega)]
    have h1 : pre.length + 1 + t - pre.length = t + 1 := by omega
    rw [h1]
    simp
  have hN : (pre ++ post).drop (pre.length + t) = post.drop t := by
    rw [List.drop_append_eq_append_drop]
    rw [List.drop_eq_nil_of_le (by omega)]
    have h1 : pre.length + t - pre.length = t := by omega
    rw [h1]
    simp
  rw [matchAt, hO, hN, extLen_self, List.length_drop]

theorem c5_flm_A (w : α) (pre post : List α)
    (hpre : pre.Nodup) (hpost : post.Nodup) (hwpre : w ∉ pre) (hwpost : w ∉ post)
    (hdisj : ∀ v ∈ pre, v ∉ post)
    (hp : 0 < pre.length) (hq : 0 < post.length) (hqp : post.length ≤ pre.length) :
    find_longest_match (pre ++ (w :: post)) (pre ++ post) = ⟨0, 0, pre.length⟩ := by
  refine find_longest_match_char _ _ 0 0 pre.length (by simp <;> omega) (by simp <;> omega)
    (by simpa using c5_diag w pre post hwpost 0 (by omega)) hp
    (fun i hi j => by omega) (fun j hj => by omega) ?_
  intro i j
  by_cases hpos : 0 < matchAt (pre ++ (w :: post)) (pre ++ post) i j
  · rcases c5_match_pos w pre post hpre hpost hwpre hwpost hdisj i j hpos with
      ⟨hij, hip⟩ | ⟨hij, hjp, hjq⟩
    · subst hij
      rw [c5_diag w pre post hwpost i (by omega)]
      omega
    · obtain ⟨t, ht1, ht2⟩ : ∃ t, i = pre.length + 1 + t ∧ j = pre.length + t :=
        ⟨j - pre.length, by omega, by omega⟩
      rw [ht1, ht2, c5_shift w pre post t]
      omega
  · omega

theorem c5_flm_B (w : α) (pre post : List α)
    (hpre : pre.Nodup) (hpost : post.Nodup) (hwpre : w ∉ pre) (hwpost : w ∉ post)
    (hdisj : ∀ v ∈ pre, v ∉ post)
    (hq : 0 < post.length) (hpq : pre.length < post.length) :
    find_longest_match (pre ++ (w :: post)) (pre ++ post)
      = ⟨pre.length + 1, pre.length, post.length⟩ := by
  have hval : matchAt (pre ++ (w :: post)) (pre ++ post) (pre.length + 1) pre.length
      = post.length := by
    have := c5_shift w pre post 0
    simpa using this
  refine find_longest_match_char _ _ (pre.length + 1) pre.length post.length
    (by simp <;> omega) (by simp <;> omega) hval hq ?_ ?_ ?_
  · intro i hi j
    by_cases hpos : 0 < matchAt (pre ++ (w :: post)) (pre ++ post) i j
    · rcases c5_match_pos w pre post hpre hpost hwpre hwpost hdisj i j hpos with
        ⟨hij, hip⟩ | ⟨hij, hjp, hjq⟩
      · subst hij
        rw [c5_diag w pre post hwpost i (by omega)]
        omega
      · omega
    · omega
  · intro j hj
    by_cases hpos : 0 < matchAt (pre ++ (w :: post)) (pre ++ post) (pre.length + 1) j
    · rcases c5_match_pos w pre post hpre hpost hwpre hwpost hdisj (pre.length + 1) j hpos with
        ⟨hij, hip⟩ | ⟨hij, hjp, hjq⟩
      · omega
      · omega
    · omega
  · intro i j
    by_cases hpos : 0 < matchAt (pre ++ (w :: post)) (pre ++ post) i j
    · rcases c5_match_pos w pre post hpre hpost hwpre hwpost hdisj i j hpos with
        ⟨hij, hip⟩ | ⟨hij, hjp, hjq⟩
      · subst hij
        rw [c5_diag w pre post hwpost i (by omega)]
        omega
      · obtain ⟨t, ht1, ht2⟩ : ∃ t, i = pre.length + 1 + t ∧ j = pre.length + t :=
          ⟨j - pre.length, by omega, by omega⟩
        rw [ht1, ht2, c5_shift w pre post t]
        omega
    · omega

theorem c5_flm_right (w : α) (post : List α) (hwpost : w ∉ post) (hq : 0 < post.length) :
    find_longest_match (w :: post) post = ⟨1, 0, post.length⟩ := by
  have hval : matchAt (w :: post) post 1 0 = post.length := by
    rw [matchAt]
    simp [extLen_self]
  refine find_longest_match_char _ _ 1 0 post.length (by simp <;> omega) (by omega) hval hq
    ?_ (fun j hj => by omega) ?_
  · intro i hi j
    have hi0 : i = 0 := by omega
    subst hi0
    have hz : matchAt (w :: post) post 0 j = 0 := by
      apply matchAt_zero
      intro v hv1 hv2
      have hw : w = v := by simpa using hv1
      subst hw
      exact hwpost (List.getElem?_mem hv2)
    omega
  · intro i j
    have := matchAt_le_right (w :: post) post i j
    omega

theorem c5_flm_left (w : α) (pre : List α) (hp : 0 < pre.length) :
    find_longest_match (pre ++ [w]) pre = ⟨0, 0, pre.length⟩ := by
  have hval : matchAt (pre ++ [w]) pre 0 0 = pre.length := by
    rw [matchAt]
    simp only [List.drop_zero]
    have h1 : extLen (pre ++ [w]) (pre ++ []) = pre.length + extLen [w] ([] : List α) :=
      extLen_append pre [w] []
    rw [List.append_nil] at h1
    rw [h1, extLen_nil_right]
    omega
  refine find_longest_match_char _ _ 0 0 pre.length (by simp <;> omega) (by omega) hval hp
    (fun i hi j => by omega) (fun j hj => by omega) ?_
  intro i j
  have := matchAt_le_right (pre ++ [w]) pre i j
  omega

theorem c5_blocks (w : α) (pre post : List α)
    (hpre : pre.Nodup) (hpost : post.Nodup) (hwpre : w ∉ pre) (hwpost : w ∉ post)
    (hdisj : ∀ v ∈ pre, v ∉ post)
    (hp : 0 < pre.length) (hq : 0 < post.length) (f : Nat) :
    matchingBlocksAux (f + 2) (pre ++ (w :: post)) (pre ++ post)
      = [⟨0, 0, pre.length⟩, ⟨pre.length + 1, pre.length, post.length⟩] := by
  have hdropO : (pre ++ (w :: post)).drop (0 + pre.length) = w :: post := by
    rw [Nat.zero_add, List.drop_left]
  have hdropN : (pre ++ post).drop (0 + pre.length) = post := by
    rw [Nat.zero_add, List.drop_left]
  have hright : ∀ g, matchingBlocksAux (g + 1) (w :: post) post
      = [⟨1, 0, post.length⟩] := by
    intro g
    rw [matchingBlocksAux, c5_flm_right w post hwpost hq]
    have hq0 : post.length ≠ 0 := by omega
    simp only [hq0, if_false]
    have htO : (w :: post).take 1 = [w] := by simp
    have htN : post.take 0 = [] := by simp
    have hdO : (w :: post).drop (1 + post.length) = [] :=
      List.drop_eq_nil_of_le (by simp <;> omega)
    have hdN : post.drop (0 + post.length) = [] := List.drop_eq_nil_of_le (by omega)
    rw [htO, htN, hdO, hdN, matchingBlocksAux_nil_right, matchingBlocksAux_nil_left]
    simp
  have hleft : ∀ g, matchingBlocksAux (g + 1) (pre ++ [w]) pre
      = [⟨0, 0, pre.length⟩] := by
    intro g
    rw [matchingBlocksAux, c5_flm_left w pre hp]
    have hp0 : pre.length ≠ 0 := by omega
    simp only [hp0, if_false]
    have htO : (pre ++ [w]).take 0 = [] := by simp
    have htN : pre.take 0 = [] := by simp
    have hdO : (pre ++ [w]).drop (0 + pre.length) = [w] := by
      rw [Nat.zero_add, List.drop_left]
    have hdN : pre.drop (0 + pre.length) = [] := List.drop_eq_nil_of_le (by omega)
    rw [htO, htN, hdO, hdN, matchingBlocksAux_nil_left, matchingBlocksAux_nil_right]
    simp
  by_cases hqp : post.length ≤ pre.length
  · rw [matchingBlocksAux, c5_flm_A w pre post hpre hpost hwpre hwpost hdisj hp hq hqp]
    have hp0 : pre.length ≠ 0 := by omega
    simp only [hp0, if_false]
    have htO : (pre ++ (w :: post)).take 0 = [] := by simp
    have htN : (pre ++ post).take 0 = [] := by simp
    rw [htO, htN, hdropO, hdropN, matchingBlocksAux_nil_left, hright f]
    simp <;> omega
  · rw [matchingBlocksAux,
      c5_flm_B w pre post hpre hpost hwpre hwpost hdisj hq (by omega)]
    have hq0 : post.length ≠ 0 := by omega
    simp only [hq0, if_false]
    have htO : (pre ++ (w :: post)).take (pre.length + 1) = pre ++ [w] := by
      rw [List.take_append_eq_append_take]
      rw [List.take_of_length_le (by omega)]
      have h1 : pre.length + 1 - pre.length = 1 := by omega
      rw [h1]
      simp
    have htN : (pre ++ post).take pre.length = pre := List.take_left pre post
    have hdO : (pre ++ (w :: post)).drop (pre.length + 1 + post.length) = [] :=
      List.drop_eq_nil_of_le (by simp <;> omega)
    have hdN : (pre ++ post).drop (pre.length + post.length) = [] :=
      List.drop_eq_nil_of_le (by simp)
    rw [htO, htN, hdO, hdN, hleft f, matchingBlocksAux_nil_left]
    simp <;> omega

theorem c5_opcodes (w : α) (pre post : List α)
    (hpre : pre.Nodup) (hpost : post.Nodup) (hwpre : w ∉ pre) (hwpost : w ∉ post)
    (hdisj : ∀ v ∈ pre, v ∉ post)
    (hp : 0 < pre.length) (hq : 0 < post.length) :
    get_opcodes (pre ++ (w :: post)) (pre ++ post)
      = [⟨.equal, 0, pre.length, 0, pre.length⟩,
         ⟨.delete, pre.length, pre.length + 1, pre.length, pre.length⟩,
         ⟨.equal, pre.length + 1, pre.length + 1 + post.length,
          pre.length, pre.length + post.length⟩] := by
  have hlen : (pre ++ (w :: post)).length + 1 = (pre.length + post.length) + 2 := by
    simp
    omega
  rw [get_opcodes, get_matching_blocks, hlen,
    c5_blocks w pre post hpre hpost hwpre hwpost hdisj hp hq (pre.length + post.length)]
  have hlenO : (pre ++ (w :: post)).length = pre.length + 1 + post.length := by
    simp
    omega
  have hlenN : (pre ++ post).length = pre.length + post.length := by simp
  rw [hlenO, hlenN]
  rw [mergeBlocks_cons]
  rw [if_pos (⟨by omega, by omega⟩ : 0 + 0 = (0 : Nat) ∧ 0 + 0 = (0 : Nat))]
  rw [mergeBlocks_cons]
  rw [if_neg (by omega : ¬(0 + (0 + pre.length) = pre.length + 1
    ∧ 0 + (0 + pre.length) = pre.length))]
  rw [if_pos (by omega : 0 + pre.length ≠ 0)]
  rw [mergeBlocks_nil, if_pos (by omega : post.length ≠ 0)]
  simp only [List.singleton_append, List.cons_append, List.nil_append]
  rw [opcodesGo_cons]
  rw [if_neg (by omega : ¬((0 : Nat) < 0 ∧ (0 : Nat) < 0))]
  rw [if_neg (by omega : ¬(0 : Nat) < 0)]
  rw [if_neg (by omega : ¬(0 : Nat) < 0)]
  rw [if_pos (by omega : 0 + pre.length ≠ 0)]
  rw [opcodesGo_cons]
  rw [if_neg (by omega :
    ¬(0 + (0 + pre.length) < pre.length + 1 ∧ 0 + (0 + pre.length) < pre.length))]
  rw [if_pos (by omega : 0 + (0 + pre.length) < pre.length + 1)]
  rw [if_pos (by omega : post.length ≠ 0)]
  rw [opcodesGo_cons]
  rw [if_neg (by omega : ¬(pre.length + 1 + post.length < pre.length + 1 + post.length
    ∧ pre.length + post.length < pre.length + post.length))]
  rw [if_neg (by omega : ¬(pre.length + 1 + post.length < pre.length + 1 + post.length))]
  rw [if_neg (by omega : ¬(pre.length + post.length < pre.length + post.length))]
  rw [if_neg (by omega : ¬(0 : Nat) ≠ 0)]
  rw [opcodesGo_nil]
  simp

end FamilyC5

/-- A single deleted line flanked by 3 or more unchanged lines on both
sides: exactly one chunk, whose old side is the deleted line and whose new
side is empty. -/
theorem c5_chunks (w : String) (pre post : List String)
    (hpre : pre.Nodup) (hpost : post.Nodup) (hwpre : w ∉ pre) (hwpost : w ∉ post)
    (hdisj : ∀ v ∈ pre, v ∉ post)
    (hp : 3 ≤ pre.length) (hq : 3 ≤ post.length)
    (hcw : CleanLine w) (hw0 : w ≠ "") :
    chunksOfNorm (pre ++ (w :: post)) (pre ++ post) = [⟨w, ""⟩] := by
  rw [chunksOfNorm,
    c5_opcodes w pre post hpre hpost hwpre hwpost hdisj (by omega) (by omega)]
  have hsO2 : pySlice (pre ++ (w :: post)) pre.length (pre.length + 1) = [w] := by
    rw [pySlice, List.drop_left]
    have h1 : pre.length + 1 - pre.length = 1 := by omega
    rw [h1]
    simp
  have hsN2 : pySlice (pre ++ post) pre.length pre.length = [] := by
    rw [pySlice]
    simp
  simp only [chunksGo_cons, chunksGo_nil, hsO2, hsN2]
  simp only [show ((⟨.equal, 0, pre.length, 0, pre.length⟩ : Opcode).tag
      = DiffTag.equal) = True by simp,
    show ((⟨.delete, pre.length, pre.length + 1, pre.length, pre.length⟩ : Opcode).tag
      = DiffTag.equal) = False by simp,
    show ((⟨.equal, pre.length + 1, pre.length + 1 + post.length,
      pre.length, pre.length + post.length⟩ : Opcode).tag = DiffTag.equal) = True by simp,
    if_true, if_false]
  rw [if_pos (by omega : 3 ≤ pre.length - 0)]
  rw [if_pos (by omega : 3 ≤ pre.length + 1 + post.length - (pre.length + 1))]
  rw [flushChunk_nil]
  rw [List.nil_append, List.nil_append, List.nil_append]
  rw [flushChunk_pair [w] [] (by simp)]
  rw [joinN_one]
  rw [pyStrip_clean w hcw]
  rw [show pyStrip (joinN []) = "" from rfl]
  simp [List.filter, hw0]

/-! ## The markdown extractor loop -/

theorem extractStep_fence_open (st : EState) (line : String)
    (hf : isFence line = true) (hb : st.inBlock = false) :
    extractStep st line = ⟨true, [], st.acc⟩ := by
  simp [extractStep, hf, hb]

theorem extractStep_fence_close (st : EState) (line : String)
    (hf : isFence line = true) (hb : st.inBlock = true) :
    extractStep st line = ⟨false, st.cur, st.acc ++ [joinN st.cur]⟩ := by
  simp [extractStep, hf, hb]

theorem extractStep_content (st : EState) (line : String)
    (hf : isFence line = false) (hb : st.inBlock = true) :
    extractStep st line = ⟨true, st.cur ++ [line], st.acc⟩ := by
  have hst : st = ⟨true, st.cur, st.acc⟩ := by
    cases st with
    | mk b c a => simp at hb; rw [hb]
  rw [hst]
  simp [extractStep, hf]

theorem extractStep_prose (st : EState) (line : String)
    (hf : isFence line = false) (hb : st.inBlock = false) :
    extractStep st line = st := by
  simp [extractStep, hf, hb]

theorem foldl_prose (ls : List String) (st : EState) (hb : st.inBlock = false)
    (h : ∀ l ∈ ls, isFence l = false) : ls.foldl extractStep st = st := by
  induction ls with
  | nil => rfl
  | cons l ls ih =>
    rw [List.foldl_cons, extractStep_prose st l (h l (by simp)) hb]
    exact ih fun l' hl' => h l' (by simp [hl'])

theorem foldl_content (ls : List String) (st : EState) (hb : st.inBlock = true)
    (h : ∀ l ∈ ls, isFence l = false) :
    ls.foldl extractStep st = ⟨true, st.cur ++ ls, st.acc⟩ := by
  induction ls generalizing st with
  | nil =>
    cases st with
    | mk b c a =>
      simp at hb
      subst hb
      simp
  | cons l ls ih =>
    rw [List.foldl_cons, extractStep_content st l (h l (by simp)) hb]
    rw [ih ⟨true, st.cur ++ [l], st.acc⟩ rfl (fun l' hl' => h l' (by simp [hl']))]
    simp

theorem foldl_section (s : MdSection) (hs : GoodSection s) (cur acc : List String) :
    (sectionLines s).foldl extractStep ⟨false, cur, acc⟩
      = ⟨false, s.content, acc ++ [joinN s.content]⟩ := by
  obtain ⟨hp, ho, hc, hcl⟩ := hs
  rw [sectionLines, List.foldl_append]
  rw [foldl_prose s.prose _ rfl hp]
  rw [List.foldl_cons, extractStep_fence_open _ _ ho rfl]
  have hsplit : s.content ++ [s.fenceClose]
      = s.content ++ [s.fenceClose] := rfl
  rw [List.foldl_append]
  rw [foldl_content s.content _ rfl hc]
  rw [List.foldl_cons, extractStep_fence_close _ _ hcl rfl]
  simp

theorem foldl_sections (secs : List MdSection) (h : ∀ s ∈ secs, GoodSection s)
    (tp : List String) (htp : ∀ l ∈ tp, isFence l = false) (cur acc : List String) :
    (((sectionsLines secs ++ tp).foldl extractStep ⟨false, cur, acc⟩)).acc
      = acc ++ secs.map (fun s => joinN s.content) := by
  induction secs generalizing cur acc with
  | nil =>
    rw [show sectionsLines [] = [] from rfl, List.nil_append]
    rw [foldl_prose tp _ rfl htp]
    simp
  | cons s rest ih =>
    have hsl : sectionsLines (s :: rest) = sectionLines s ++ sectionsLines rest := rfl
    rw [hsl, List.append_assoc, List.foldl_append]
    rw [foldl_section s (h s (by simp)) cur acc]
    rw [ih (fun s' hs' => h s' (by simp [hs'])) s.content (acc ++ [joinN s.content])]
    simp

/-- The accumulated-block count after a run of the extractor loop:
each pair of fence lines contributes one block, and an open leading state
lets the first fence close a block. -/
theorem foldl_acc_length (ls : List String) (st : EState) :
    ((ls.foldl extractStep st).acc).length
      = st.acc.length
        + ((ls.filter isFence).length + (if st.inBlock then 1 else 0)) / 2 := by
  induction ls generalizing st with
  | nil =>
    simp only [List.foldl_nil, List.filter_nil, List.length_nil, Nat.zero_add]
    cases hb : st.inBlock <;> simp [hb]
  | cons l ls ih =>
    rw [List.foldl_cons, ih (extractStep st l)]
    by_cases hf : isFence l
    · by_cases hb : st.inBlock
      · rw [extractStep_fence_close st l hf hb]
        simp [hf, hb]
        try omega
      · rw [extractStep_fence_open st l hf (by simpa using hb)]
        simp [hf, hb]
        try omega
    · have hf' : isFence l = false := by simpa using hf
      by_cases hb : st.inBlock
      · rw [extractStep_content st l hf' hb]
        simp [hf', hb]
        try omega
      · rw [extractStep_prose st l hf' (by simpa using hb)]
        simp [hf', hb]
        try omega

/-! ## The claims -/

/-- C3: for every text `t`, `get_str_diff_chunks(t, t)` returns the empty
sequence of chunks. -/
theorem C3_identity_empty (t : String) : get_str_diff_chunks t t = [] := by
  rw [get_str_diff_chunks]
  exact chunksOfNorm_self _

/-- C4 (counterexample): two texts that differ only in the number of blank
lines — `"a\n\nb"` versus `"a\nb"` — produce a non-empty chunk sequence,
refuting the claim that such pairs yield the empty sequence. -/
theorem C4_blank_lines_counterexample :
    get_str_diff_chunks "a\n\nb" "a\nb" = [⟨"a\n\nb", "a\nb"⟩] ∧
      get_str_diff_chunks "a\n\nb" "a\nb" ≠ [] := by
  constructor
  · decide
  · decide

/-- C4 (amended): if `old` and `new` differ only in whitespace runs within
lines, line terminators, or leading/trailing blank lines — that is, if they
have identical normalized line sequences — then the chunker returns the
empty sequence.  (Differing counts of interior blank lines change the
normalized line sequence and are not covered; see the counterexample.) -/
theorem C4_whitespace_invariance (old_text new_text : String)
    (h : normalize_lines old_text = normalize_lines new_text) :
    get_str_diff_chunks old_text new_text = [] := by
  rw [get_str_diff_chunks, h]
  exact chunksOfNorm_self _

/-- C4 (witness): the amended theorem applied to texts differing only in a
within-line whitespace run and a trailing newline. -/
theorem C4_whitespace_invariance_witness :
    normalize_lines "a \t b\n" = normalize_lines "a b" ∧
      get_str_diff_chunks "a \t b\n" "a b" = [] :=
  ⟨by decide, C4_whitespace_invariance "a \t b\n" "a b" (by decide)⟩

/-- C2: two single-line edits around a shared context of unrepeated lines:
with 2 or fewer unchanged (post-normalization) context lines between them
the edits merge into one chunk, with 3 or more they split into exactly two
chunks. -/
theorem C2_context_threshold (old_text new_text x y x' y' : String) (c : List String)
    (hO : normalize_lines old_text = x :: (c ++ [y]))
    (hN : normalize_lines new_text = x' :: (c ++ [y']))
    (hndO : (x :: (c ++ [y])).Nodup) (hndN : (x' :: (c ++ [y'])).Nodup)
    (hxx' : x ≠ x') (hxy' : x ≠ y') (hyx' : y ≠ x') (hyy' : y ≠ y')
    (hx0 : x ≠ "") (hx0' : x' ≠ "") (hy0 : y ≠ "") (hy0' : y' ≠ "") :
    (c.length ≤ 2 → (get_str_diff_chunks old_text new_text).length = 1) ∧
      (3 ≤ c.length → (get_str_diff_chunks old_text new_text).length = 2) := by
  have hgsd : get_str_diff_chunks old_text new_text
      = chunksOfNorm (x :: (c ++ [y])) (x' :: (c ++ [y'])) := by
    rw [get_str_diff_chunks, hO, hN]
  have hcx : CleanLine x := normalize_lines_clean old_text x (by rw [hO]; simp)
  have hcy : CleanLine y := normalize_lines_clean old_text y (by rw [hO]; simp)
  have hcx' : CleanLine x' := normalize_lines_clean new_text x' (by rw [hN]; simp)
  have hcy' : CleanLine y' := normalize_lines_clean new_text y' (by rw [hN]; simp)
  have hxc : x ∉ c := by
    intro hm
    exact (List.nodup_cons.1 hndO).1 (List.mem_append.2 (Or.inl hm))
  have hx'c : x' ∉ c := by
    intro hm
    exact (List.nodup_cons.1 hndN).1 (List.mem_append.2 (Or.inl hm))
  have hxmem : x ∉ x' :: (c ++ [y']) := by
    intro hm
    rcases List.mem_cons.1 hm with h | h
    · exact hxx' h
    · rcases List.mem_append.1 h with h | h
      · exact hxc h
      · exact hxy' (by simpa using h)
  constructor
  · intro hk
    rw [hgsd, c2_chunks_merged x y x' y' c hk hxmem hx'c hxx' hxy' hyx' hyy'
      hcx hcx' hcy hcy' hx0 hx0' hy0 hy0']
    rfl
  · intro hk
    rw [hgsd, c2_chunks_split x y x' y' c hk hxmem hx'c hxx' hyy' hcx hcx' hcy hcy']
    rfl

/-- C2 (witness): two single-line edits separated by exactly 2 unchanged
lines give one chunk; separated by exactly 3 unchanged lines they give
two. -/
theorem C2_context_threshold_witness :
    (get_str_diff_chunks "x1\nc1\nc2\nx2" "y1\nc1\nc2\ny2").length = 1 ∧
      (get_str_diff_chunks "x1\nc1\nc2\nc3\nx2" "y1\nc1\nc2\nc3\ny2").length = 2 := by
  constructor
  · exact (C2_context_threshold "x1\nc1\nc2\nx2" "y1\nc1\nc2\ny2"
      "x1" "x2" "y1" "y2" ["c1", "c2"] (by decide) (by decide) (by decide) (by decide)
      (by decide) (by decide) (by decide) (by decide)
      (by decide) (by decide) (by decide) (by decide)).1 (by decide)
  · exact (C2_context_threshold "x1\nc1\nc2\nc3\nx2" "y1\nc1\nc2\nc3\ny2"
      "x1" "x2" "y1" "y2" ["c1", "c2", "c3"] (by decide) (by decide) (by decide) (by decide)
      (by decide) (by decide) (by decide) (by decide)
      (by decide) (by decide) (by decide) (by decide)).2 (by decide)

/-- C5 (counterexample): removing the line `"b"` from `"a\nb"` yields one
chunk, but its `new_version` is `"a"` — the absorbed unchanged context —
which is not empty after trimming, refuting the claim as stated for all
texts. -/
theorem C5_deletion_counterexample :
    get_str_diff_chunks "a\nb" "a" = [⟨"a\nb", "a"⟩] ∧
      (get_str_diff_chunks "a\nb" "a").map (fun d => pyStrip d.new_version) = ["a"] ∧
      ("a" : String) ≠ "" := by
  refine ⟨by decide, by decide, by decide⟩

/-- C5 (amended): removing one line whose normalized content is nonblank
and which is flanked by at least 3 unchanged lines on each side (all lines
pairwise distinct after normalization) yields exactly one chunk: old side
the removed line, new side the empty string. -/
theorem C5_pure_deletion (old_text new_text w : String) (pre post : List String)
    (hO : normalize_lines old_text = pre ++ (w :: post))
    (hN : normalize_lines new_text = pre ++ post)
    (hnd : (pre ++ (w :: post)).Nodup)
    (hp : 3 ≤ pre.length) (hq : 3 ≤ post.length) (hw0 : w ≠ "") :
    get_str_diff_chunks old_text new_text = [⟨w, ""⟩] := by
  have hcw : CleanLine w := normalize_lines_clean old_text w (by rw [hO]; simp)
  rw [List.nodup_append] at hnd
  obtain ⟨hpre, hwpost', hdisj⟩ := hnd
  have hpost : post.Nodup := (List.nodup_cons.1 hwpost').2
  have hwpost : w ∉ post := (List.nodup_cons.1 hwpost').1
  have hwpre : w ∉ pre := fun hm => hdisj hm (by simp)
  have hdisj' : ∀ v ∈ pre, v ∉ post := fun v hv hm => hdisj hv (by simp [hm])
  rw [get_str_diff_chunks, hO, hN]
  exact c5_chunks w pre post hpre hpost hwpre hwpost hdisj' hp hq hcw hw0

/-- C5 (witness): removing the middle line `"xx"` of a 7-line text with
3 unchanged lines on each side gives exactly the chunk `("xx", "")`. -/
theorem C5_pure_deletion_witness :
    get_str_diff_chunks "p1\np2\np3\nxx\nq1\nq2\nq3" "p1\np2\np3\nq1\nq2\nq3"
      = [⟨"xx", ""⟩] :=
  C5_pure_deletion "p1\np2\np3\nxx\nq1\nq2\nq3" "p1\np2\np3\nq1\nq2\nq3" "xx"
    ["p1", "p2", "p3"] ["q1", "q2", "q3"]
    (by decide) (by decide) (by decide) (by decide) (by decide) (by decide)

/-- C6: a markdown text made of `N` well-formed fenced sections with
arbitrary prose between and after them extracts to exactly the `N` block
contents, in document order, each the newline-join of the verbatim lines
between its fences (the fence lines, with any language tag, excluded). -/
theorem C6_extraction_roundtrip (markdown : String) (secs : List MdSection)
    (tp : List String)
    (hsplit : pySplitlines markdown = sectionsLines secs ++ tp)
    (hgood : ∀ s ∈ secs, GoodSection s)
    (htp : ∀ l ∈ tp, isFence l = false) :
    extract_markdown_code_blocks markdown = secs.map (fun s => joinN s.content) := by
  rw [extract_markdown_code_blocks, hsplit, runLines]
  exact foldl_sections secs hgood tp htp [] []

/-- C6 (witness): two fenced blocks (the first with a language tag) with
prose before, between and after extract to exactly their contents. -/
theorem C6_extraction_roundtrip_witness :
    extract_markdown_code_blocks "pre\n```verilog\ncode1\ncode2\n```\nmid\n```\nblock2\n```\npost"
      = ["code1\ncode2", "block2"] := by
  have h := C6_extraction_roundtrip
    "pre\n```verilog\ncode1\ncode2\n```\nmid\n```\nblock2\n```\npost"
    [⟨["pre"], "```verilog", ["code1", "code2"], "```"⟩,
     ⟨["mid"], "```", ["block2"], "```"⟩] ["post"]
    (by decide) (by decide) (by decide)
  rw [h]
  decide

/-- C7: when the text ends inside an open fenced block (a final fence line
never closed), the trailing block is omitted entirely and the extractor
returns exactly the blocks closed before that point. -/
theorem C7_unterminated_block (markdown f : String) (ls ts : List String)
    (hsplit : pySplitlines markdown = ls ++ f :: ts)
    (hstate : (ls.foldl extractStep ⟨false, [], []⟩).inBlock = false)
    (hf : isFence f = true)
    (hts : ∀ l ∈ ts, isFence l = false) :
    extract_markdown_code_blocks markdown = (runLines ls).acc := by
  rw [extract_markdown_code_blocks, hsplit, runLines, List.foldl_append, List.foldl_cons]
  rw [extractStep_fence_open _ f hf hstate]
  rw [foldl_content ts _ rfl hts]
  rfl

/-- C7 (witness): a closed block followed by a dangling fence and
unterminated content extracts to just the closed block. -/
theorem C7_unterminated_block_witness :
    extract_markdown_code_blocks "```\ncode\n```\ntext\n```\ndangling" = ["code"] := by
  have h := C7_unterminated_block "```\ncode\n```\ntext\n```\ndangling" "```"
    ["```", "code", "```", "text"] ["dangling"] (by decide) (by decide) (by decide) (by decide)
  rw [h]
  decide

/-- C8 (counterexample): for inputs whose lines contain a double space,
the emitted `old_version` contains the whitespace-collapsed (normalized)
line `"a b"`, not the original line `"a  b"` — the output is built from
the normalized lines, refuting the claim that output uses the original
(non-normalized) input lines. -/
theorem C8_normalized_output_counterexample :
    get_str_diff_chunks "a  b\nX" "a  b\nY" = [⟨"a b\nX", "a b\nY"⟩] ∧
      ("a b\nX" : String) ≠ "a  b\nX" := by
  refine ⟨by decide, by decide⟩

/-- C8 (amended): the normalized-line view is all the chunker reads — the
whole result depends only on the normalized line sequences of the inputs
(so both comparison and output are based on normalized lines). -/
theorem C8_output_from_normalized (o o' n n' : String)
    (ho : normalize_lines o' = normalize_lines o)
    (hn : normalize_lines n' = normalize_lines n) :
    get_str_diff_chunks o' n' = get_str_diff_chunks o n := by
  rw [get_str_diff_chunks, get_str_diff_chunks, ho, hn]

/-- C8 (witness): collapsing the double space of the input does not change
the output. -/
theorem C8_output_from_normalized_witness :
    get_str_diff_chunks "a  b\nX" "a  b\nY" = get_str_diff_chunks "a b\nX" "a b\nY" :=
  C8_output_from_normalized "a b\nX" "a  b\nX" "a b\nY" "a  b\nY" (by decide) (by decide)

/-- C9: the two chunker implementations diverge: on `("a  b", "a b")`
(a whitespace-only difference) the v1 chunker emits one chunk built from
the raw lines, while the refined chunker filters the no-op chunk out and
returns the empty sequence. -/
theorem C9_implementations_diverge :
    get_str_diff_chunks_v1 "a  b" "a b" = [⟨"a  b", "a b"⟩] ∧
      get_str_diff_chunks "a  b" "a b" = [] ∧
      get_str_diff_chunks_v1 "a  b" "a b" ≠ get_str_diff_chunks "a  b" "a b" := by
  refine ⟨by decide, by decide, by decide⟩

/-- C10: the number of extracted code blocks is exactly the number of
fence lines divided by two, rounded down; an odd trailing fence produces
no block. -/
theorem C10_block_count (markdown : String) :
    (extract_markdown_code_blocks markdown).length = countFenceLines markdown / 2 := by
  rw [extract_markdown_code_blocks, runLines, countFenceLines]
  rw [foldl_acc_length (pySplitlines markdown) ⟨false, [], []⟩]
  simp

/-- C1: the scoring entry point fails with the `PreconditionError` message
`"No diffs found"` when the diff chunker finds nothing, with
`"No code blocks found"` when the report has no fenced block, and succeeds
(returns a score, raising nothing) exactly when neither precondition is
violated. -/
theorem C1_precondition_gate (base_code buggy_code bug_report : String) (th : ℚ) :
    (get_str_diff_chunks base_code buggy_code = [] →
      assess_bug_report_contents_score base_code buggy_code bug_report th
        = Except.error "No diffs found") ∧
    (get_str_diff_chunks base_code buggy_code ≠ [] →
      extract_markdown_code_blocks bug_report = [] →
      assess_bug_report_contents_score base_code buggy_code bug_report th
        = Except.error "No code blocks found") ∧
    ((assess_bug_report_contents_score base_code buggy_code bug_report th).toOption = none
      ↔ (get_str_diff_chunks base_code buggy_code = []
          ∨ extract_markdown_code_blocks bug_report = [])) := by
  refine ⟨?_, ?_, ?_⟩
  · intro h1
    simp [assess_bug_report_contents_score, h1]
  · intro h1 h2
    simp [assess_bug_report_contents_score, h1, h2]
  · by_cases h1 : get_str_diff_chunks base_code buggy_code = []
    · simp [assess_bug_report_contents_score, h1, Except.toOption]
    · by_cases h2 : extract_markdown_code_blocks bug_report = []
      · simp [assess_bug_report_contents_score, h1, h2, Except.toOption]
      · simp [assess_bug_report_contents_score, h1, h2, Except.toOption]

/-- C1 (witness): identical base and buggy code make the scorer fail with
`"No diffs found"`; a report without code blocks makes it fail with
`"No code blocks found"`; a well-formed triple produces a score. -/
theorem C1_precondition_gate_witness :
    assess_bug_report_contents_score "assign out = in;" "assign out = in;"
        "```\nassign out = in;\n```" (8 / 10) = Except.error "No diffs found" ∧
      assess_bug_report_contents_score "assign a = b;" "assign a = c;"
        "no code here" (8 / 10) = Except.error "No code blocks found" := by
  constructor
  · exact (C1_precondition_gate "assign out = in;" "assign out = in;"
      "```\nassign out = in;\n```" (8 / 10)).1 (by decide)
  · exact (C1_precondition_gate "assign a = b;" "assign a = c;"
      "no code here" (8 / 10)).2.1 (by decide) (by decide)

end AssessBugReport
